import Mathlib

/-!
Verification development for the cpp-dump value-to-text formatter.

This file shallowly embeds the three source components of the repository:

* `export_container` (src/cpp-dump/hpp/export_var/export_container.hpp):
  the recursive layout engine deciding one-line vs multi-line rendering,
* `export_arithmetic` (src/cpp-dump/hpp/export_var/export_arithmetic.hpp):
  the boolean / character / integer rendering pipeline,
* the iterable abstraction (src/cpp-dump/hpp/iterable.hpp), reflected here
  by the list-based container model.

External collaborators (the escape/style layer `es::*`, the global options,
the `export_command` object with its skip plan, the `export_var` dispatcher
and the small string utilities `get_length` / `has_newline` /
`get_last_line_length`) are not part of the source tree; they are modelled
from the specification, as noted on each definition.
-/

namespace CppDump

/-- The newline character, written via its code point. -/
def nlChar : Char := Char.ofNat 10

/-- The one-character string containing only a newline: the sentinel that
`export_container` returns when it must not emit a line break. -/
def nlStr : String := String.mk [nlChar]

/-- Modelled from the spec: `has_newline` of the utility layer — whether the
rendered string contains a line break. -/
def hasNewline (s : String) : Bool := s.data.contains nlChar

/-- Modelled from the spec: `get_length` of the utility layer — the visible
width of a rendered string.  In non-colorized (plain) mode the style layer
does not change string length, so visible width is string length. -/
def getLength (s : String) : Nat := s.length

/-- Modelled from the spec: `get_last_line_length` of the utility layer —
the number of columns consumed on the last line of a rendered string. -/
def getLastLineLength (s : String) : Nat :=
  (s.data.reverse.takeWhile (fun c => c ≠ nlChar)).length

/-- Modelled from the spec: the escape/style layer `es::*`, a family of pure
string-wrapping functions keyed by semantic category.  Bracket styling is
additionally keyed by the recursion depth. -/
structure Es where
  number : String → String
  signedNumber : String → String
  character : String → String
  escapedChar : String → String
  op : String → String
  member : String → String
  reserved : String → String
  bracket : String → Nat → String

/-- The plain (non-colorized) style layer: every wrapper is the identity, so
visible width equals string length. -/
def esPlain : Es :=
  { number := id, signedNumber := id, character := id, escapedChar := id,
    op := id, member := id, reserved := id, bracket := fun s _ => s }

/-- The container indentation policy `types::cont_indent_style_t` of the
global options. -/
inductive ContIndentStyle where
  | minimal
  | always
  | whenNested
  | whenNonTuplesNested
deriving DecidableEq

/-- Modelled from the spec: the global configuration store `options::*` —
maximum line width in columns, maximum recursion depth, and the container
indentation policy. -/
structure Opts where
  maxLineWidth : Nat
  maxDepth : Nat
  contIndentStyle : ContIndentStyle

/-- A value to be rendered.  A primitive carries its (dispatcher-produced)
rendering; a container carries the compile-time capabilities of its element
type (`is_iterable_like`, `is_tuple`, used by the indent-shift policy) and
its list of elements. -/
inductive Val where
  | prim (s : String)
  | cont (elemsIterable elemsTuple : Bool) (elems : List Val)

/-- One entry of a skip plan: `(is_ellipsis, iterator position, index)`. -/
abbrev SkipEntry : Type := Bool × Nat × Nat

/-- Modelled from the spec: the per-level part of the `export_command`
context object — the show-index toggle and `create_skip_container`, the
precomputed elision plan, here keyed by the container size. -/
structure ContCmd where
  showIndex : Bool
  skip : Nat → List SkipEntry

/-- Modelled from the spec: the depth-aware `export_command` chain:
level `0` is the current command and shifting yields `command.next()`. -/
abbrev Cmds : Type := Nat → ContCmd

/-- `command.next()`: drop the current level of the command chain. -/
def shiftCmds (c : Cmds) : Cmds := fun n => c (n + 1)

/-- The indent-shift decision of `export_container` (lines 48–55): whether
child elements are forced onto their own lines, decided from the policy and
the element type's capabilities only. -/
def shiftIndentDecision (opts : Opts) (elemsIterable elemsTuple : Bool) : Bool :=
  match opts.contIndentStyle with
  | .always => true
  | .whenNested => elemsIterable
  | .whenNonTuplesNested => elemsIterable && !elemsTuple
  | .minimal => false

/-- The element at a skip-plan position of the non-empty container
`a :: rest` (the dereference `*it` of the source); positions are reduced
modulo the size, which is the identity for every valid plan. -/
def elemAt (a : Val) (rest : List Val) (pos : Nat) : Val :=
  (a :: rest).getD (pos % (rest.length + 1)) a

/-- The single-line attempt of `export_container` (lines 57–103): iterate
the skip plan accumulating output, aborting (`none`) when the running width
would exceed the maximum line width or a child's rendering contains a
newline.  `render v lll` formats the child `v` starting at column `lll`,
at one deeper depth, with `fail_on_newline` set. -/
def slLoop (es : Es) (w : Nat) (showIndex : Bool) (render : Val → Nat → String)
    (a : Val) (rest : List Val) (lll : Nat) :
    List SkipEntry → Bool → String → Option String
  | [], _, acc => some acc
  | (isEll, pos, idx) :: more, isFirst, acc =>
    let acc1 := if isFirst then acc else acc ++ es.op ", "
    if isEll then
      let acc2 := acc1 ++ es.op "..."
      if w < lll + getLength acc2 + 2 then none
      else slLoop es w showIndex render a rest lll more false acc2
    else
      let acc2 := if showIndex then acc1 ++ es.member (toString idx) ++ es.op ": " else acc1
      let s := render (elemAt a rest pos) (lll + getLength acc2)
      if hasNewline s then none
      else
        let acc3 := acc2 ++ s
        if w < lll + getLength acc3 + 2 then none
        else slLoop es w showIndex render a rest lll more false acc3

/-- The multi-line fallback loop of `export_container` (lines 120–149):
each plan entry goes on its own line at the deeper indent; `render v lll`
formats the child `v` starting at column `lll`, at one deeper depth, with
`fail_on_newline` cleared. -/
def mlLoop (es : Es) (showIndex : Bool) (newIndent : String)
    (render : Val → Nat → String) (a : Val) (rest : List Val) :
    List SkipEntry → Bool → String → String
  | [], _, acc => acc
  | (isEll, pos, idx) :: more, isFirst, acc =>
    let acc1 := if isFirst then acc else acc ++ es.op ","
    if isEll then
      mlLoop es showIndex newIndent render a rest more false
        (acc1 ++ nlStr ++ newIndent ++ es.op "...")
    else
      let acc2 := acc1 ++ nlStr ++ newIndent
      let acc3 := if showIndex then acc2 ++ es.member (toString idx) ++ es.op ": " else acc2
      let s := render (elemAt a rest pos) (getLastLineLength acc3)
      mlLoop es showIndex newIndent render a rest more false (acc3 ++ s)

/-- `export_container` (export_container.hpp, lines 26–153).  `render` is
the caller-supplied dispatcher callback (`export_var`), already bound to the
next-depth command: `render v ind lll fon` formats child `v` with indent
`ind`, last line length `lll` and fail-on-newline flag `fon` at one deeper
depth. -/
def exportContainer (es : Es) (opts : Opts) (cmd : ContCmd)
    (render : Val → String → Nat → Bool → String)
    (elemsIterable elemsTuple : Bool) (l : List Val)
    (indent : String) (lll : Nat) (depth : Nat) (fon : Bool) : String :=
  match l with
  | [] => es.bracket "[ ]" depth
  | a :: rest =>
    if opts.maxDepth ≤ depth then
      es.bracket "[ " depth ++ es.op "..." ++ es.bracket " ]" depth
    else
      let entries := cmd.skip (rest.length + 1)
      let attempt :=
        if shiftIndentDecision opts elemsIterable elemsTuple then none
        else slLoop es opts.maxLineWidth cmd.showIndex
          (fun v l2 => render v indent l2 true) a rest lll entries true
          (es.bracket "[ " depth)
      match attempt with
      | some out => out ++ es.bracket " ]" depth
      | none =>
        if fon then nlStr
        else
          let newIndent := indent ++ "  "
          let body := mlLoop es cmd.showIndex newIndent
            (fun v l2 => render v newIndent l2 false) a rest entries true
            (es.bracket "[" depth)
          body ++ nlStr ++ indent ++ es.bracket "]" depth

/-- Modelled from the spec: the external `export_var` dispatcher, fuelled so
that the recursion is structural.  A primitive's rendering is returned as
is; containers are routed to `export_container` with the dispatcher itself
(at the next depth and command level) as the child callback. -/
def exportVarF : Nat → Es → Opts → Cmds → Val → String → Nat → Nat → Bool → String
  | 0, _, _, _, _, _, _, _, _ => ""
  | fuel + 1, es, opts, cmds, v, indent, lll, depth, fon =>
    match v with
    | .prim s => s
    | .cont itb tub l =>
      exportContainer es opts (cmds 0)
        (fun e ind l2 f2 => exportVarF fuel es opts (shiftCmds cmds) e ind l2 (depth + 1) f2)
        itb tub l indent lll depth fon

mutual

/-- Structural size of a value, used as fuel for the dispatcher. -/
def valSize : Val → Nat
  | .prim _ => 1
  | .cont _ _ l => valSizeList l + 1

/-- Structural size of a list of values. -/
def valSizeList : List Val → Nat
  | [] => 0
  | v :: vs => valSize v + valSizeList vs + 1

end

/-- The `export_var` dispatcher applied with always-sufficient fuel:
`valSize v` bounds the nesting depth of `v`. -/
def exportVar (es : Es) (opts : Opts) (cmds : Cmds) (v : Val)
    (indent : String) (lll : Nat) (depth : Nat) (fon : Bool) : String :=
  exportVarF (valSize v) es opts cmds v indent lll depth fon

/-- `export_command::bool_style_t` (the fourth alternative is the numeric
`"1"/"0"` style, the `default` case of the source switch). -/
inductive BoolStyle where
  | normal
  | trueLeft
  | trueRight
  | numeric
deriving DecidableEq

/-- The integer style tuple
`[base, digits, chunk, space_fill, make_unsigned_or_no_space_for_minus]`
destructured by `export_arithmetic` (export_arithmetic.hpp, line 214). -/
structure IntStyle where
  base : Nat
  digits : Nat
  chunk : Nat
  spaceFill : Bool
  makeUnsignedOrNoSpaceForMinus : Bool

/-- Modelled from the spec: the style toggles of the `export_command`
context read by the numeric/char formatter, including `command.format`,
the custom per-type format function (returning `""` when it does not
apply). -/
structure ArithCmd where
  boolStyle : BoolStyle
  intStyle : Option IntStyle
  charAsHex : Bool
  format : Int → String

/-- `export_arithmetic` for `bool` (export_arithmetic.hpp, lines 30–49). -/
def exportArithmeticBool (es : Es) (cmd : ArithCmd) (boolValue : Bool) : String :=
  match cmd.boolStyle with
  | .normal => es.reserved (if boolValue then "true" else "false")
  | .trueLeft => es.reserved (if boolValue then "true " else "false")
  | .trueRight => es.reserved (if boolValue then " true" else "false")
  | .numeric => es.number (if boolValue then "1" else "0")

/-- The single-quote character. -/
def qChar : Char := Char.ofNat 39

/-- The backslash character. -/
def bsChar : Char := Char.ofNat 92

/-- The digit character for a value below 16, uppercase for 10–15; this is
both the `to_hex_char` lambda of the char formatter (lines 102–104) and the
digit alphabet of `std::uppercase` streams. -/
def digitChar (d : Nat) : Char :=
  if d < 10 then Char.ofNat (48 + d) else Char.ofNat (55 + d)

/-- Modelled from the spec: `escape_non_printable_char` of the utility
layer — standard two-character escapes for the common control characters, a
four-character numeric `\xHH` fallback otherwise (hex digit case is a free
choice of the model; only the length matters to the claims). -/
def escapeNonPrintable (c : Nat) : String :=
  if c = 0 then String.mk [bsChar, Char.ofNat 48]
  else if c = 7 then String.mk [bsChar, Char.ofNat 97]
  else if c = 8 then String.mk [bsChar, Char.ofNat 98]
  else if c = 9 then String.mk [bsChar, Char.ofNat 116]
  else if c = 10 then String.mk [bsChar, Char.ofNat 110]
  else if c = 11 then String.mk [bsChar, Char.ofNat 118]
  else if c = 12 then String.mk [bsChar, Char.ofNat 102]
  else if c = 13 then String.mk [bsChar, Char.ofNat 114]
  else String.mk [bsChar, Char.ofNat 120, digitChar (c / 16 % 16), digitChar (c % 16)]

/-- `export_arithmetic` for `char` (export_arithmetic.hpp, lines 65–111).
The character value is modelled as its byte value (a natural below 256). -/
def exportArithmeticChar (es : Es) (cmd : ArithCmd) (c : Nat) : String :=
  let isPr : Bool := decide (32 ≤ c ∧ c ≤ 126)
  let needEsc : Bool := !isPr || c == 39 || c == 92
  let output :=
    if needEsc then
      let esc := if isPr then String.mk [bsChar, Char.ofNat c] else escapeNonPrintable c
      if cmd.charAsHex && decide (2 < esc.length) then String.mk (List.replicate 4 ' ')
      else es.character (String.mk [qChar]) ++ es.escapedChar esc ++ es.character (String.mk [qChar])
    else es.character (String.mk [qChar, Char.ofNat c, qChar])
  if !cmd.charAsHex then output
  else
    let output := if !needEsc then output.push ' ' else output
    output ++ es.number (String.mk [Char.ofNat 48, Char.ofNat 120, digitChar (c / 16 % 16), digitChar (c % 16)])

/-- `T_max` of `_get_max_digits` (lines 121–125): the larger of the type's
maximum and the unsigned reinterpretation of its minimum, for a `bits`-wide
integral type. -/
def tmaxU (bits : Nat) (signed : Bool) : Nat :=
  if signed then 2 ^ (bits - 1) else 2 ^ bits - 1

/-- `_get_max_digits_aux` (lines 114–117), fuelled: the number of digits of
`n` in the given base (`0` for `n = 0`). -/
def maxDigitsGo (base : Nat) : Nat → Nat → Nat
  | 0, _ => 0
  | fuel + 1, n => if n = 0 then 0 else 1 + maxDigitsGo base fuel (n / base)

/-- `_get_max_digits` (lines 121–144): digits needed for the type's extreme
magnitude; any base other than 2, 8, 10 falls to the 16 case of the switch. -/
def getMaxDigits (bits : Nat) (signed : Bool) (base : Nat) : Nat :=
  let b := if base = 2 ∨ base = 8 ∨ base = 10 then base else 16
  maxDigitsGo b (tmaxU bits signed) (tmaxU bits signed)

/-- Least-significant-first digit characters of `n` in the given base
(empty for `n = 0`), fuelled. -/
def natDigitsRevGo (base : Nat) : Nat → Nat → List Char
  | 0, _ => []
  | fuel + 1, n => if n = 0 then [] else digitChar (n % base) :: natDigitsRevGo base fuel (n / base)

/-- `_abs_to_reversed_str` (lines 148–171): the magnitude as a reversed
(least-significant-first) digit string.  All three source branches produce
the base-`base` numeral of `abs` reversed — decimal via `std::to_string`
plus `std::reverse`, binary bit-by-bit (the do-while emits a digit even for
zero), other bases via an uppercase stream plus `std::reverse` — so they
share the digit helper here. -/
def absToReversedStr (base abs : Nat) : String :=
  if base = 10 then
    String.mk (if abs = 0 then [Char.ofNat 48] else natDigitsRevGo 10 abs abs)
  else if base = 2 then
    String.mk (if abs = 0 then [Char.ofNat 48] else natDigitsRevGo 2 abs abs)
  else
    String.mk (if abs = 0 then [Char.ofNat 48] else natDigitsRevGo base abs abs)

/-- The chunking loop of `_chunk_string` (lines 175–186), fuelled: a space
after every `chunk` characters. -/
def chunkGo (chunk : Nat) : Nat → List Char → List Char
  | 0, _ => []
  | _ + 1, [] => []
  | fuel + 1, c :: cs =>
    (c :: cs).take chunk ++ [' '] ++ chunkGo chunk fuel ((c :: cs).drop chunk)

/-- `_chunk_string` (lines 175–186): chunk the reversed digit string; for
base 10 the spurious trailing separator is dropped. -/
def chunkString (base chunk : Nat) (s : String) : String :=
  let out := chunkGo chunk s.length s.data
  String.mk (if base = 10 then out.dropLast else out)

/-- `_get_reversed_prefix` (lines 189–198): the reversed two-character radix
marker. -/
def revRadixMark (base : Nat) : String :=
  if base = 2 then String.mk [Char.ofNat 98, Char.ofNat 48]
  else if base = 8 then String.mk [Char.ofNat 111, Char.ofNat 48]
  else String.mk [Char.ofNat 120, Char.ofNat 48]

/-- `std::abs` / unsigned-reinterpret step of `export_arithmetic` (lines
237–244): the magnitude actually rendered — the two's-complement pattern
under the unsigned-reinterpret style, the absolute value otherwise. -/
def absOf (bits : Nat) (signed : Bool) (st : IntStyle) (value : Int) : Nat :=
  if signed && !(st.base == 10) && st.makeUnsignedOrNoSpaceForMinus
  then (value % ((2 : Int) ^ bits)).toNat else value.natAbs

/-- Lines 250–254: a minus before filling (decimal with space fill only). -/
def intStagePreMinus (needMinus minusBeforeFill : Bool) (s : String) : String :=
  if needMinus && minusBeforeFill then s.push (Char.ofNat 45) else s

/-- Lines 256–259: fill with spaces or zeros up to the digit count. -/
def intStageFill (digits : Nat) (spaceFill : Bool) (s : String) : String :=
  if s.length < digits then
    s ++ String.mk (List.replicate (digits - s.length) (if spaceFill then ' ' else '0'))
  else s

/-- Lines 262–265: a space between chunks when chunking is on. -/
def intStageChunk (base chunk : Nat) (s : String) : String :=
  if 0 < chunk then chunkString base chunk s else s

/-- Lines 267–270: the reversed radix marker for non-decimal bases. -/
def intStageRadix (base : Nat) (s : String) : String :=
  if !(base == 10) then s ++ revRadixMark base else s

/-- Lines 272–277: the deferred minus, or the extra alignment space. -/
def intStageSign (needMinus minusBeforeFill lengthWasBelowDigits addExtraSpace : Bool)
    (s : String) : String :=
  if needMinus && !minusBeforeFill then s.push (Char.ofNat 45)
  else if lengthWasBelowDigits && addExtraSpace then s.push ' '
  else s

/-- `export_arithmetic` for integral types (export_arithmetic.hpp, lines
200–287).  The C++ type `T` is modelled by its width `bits` and signedness;
`value` holds the mathematical value (for unsigned types a nonnegative
one).  `std::abs` is the mathematical absolute value and the
unsigned-reinterpret cast is reduction modulo `2 ^ bits`. -/
def exportArithmeticInt (es : Es) (bits : Nat) (signed : Bool)
    (cmd : ArithCmd) (value : Int) : String :=
  match cmd.intStyle with
  | none =>
    let o := cmd.format value
    if o = "" then es.signedNumber (toString value) else es.signedNumber o
  | some st =>
    if st.base = 10 ∧ st.digits = 0 ∧ st.chunk = 0 then es.signedNumber (toString value)
    else
      let maxDigits := getMaxDigits bits signed st.base
      let digits := if maxDigits < st.digits then maxDigits else st.digits
      let chunk := if maxDigits < st.chunk then 0 else st.chunk
      let makeUnsigned : Bool := signed && !(st.base == 10) && st.makeUnsignedOrNoSpaceForMinus
      let addExtraSpace : Bool := !(!signed || st.makeUnsignedOrNoSpaceForMinus)
      let out0 := absToReversedStr st.base (absOf bits signed st value)
      let needMinus : Bool := !makeUnsigned && decide (value < 0)
      let minusBeforeFill : Bool := (st.base == 10) && st.spaceFill
      let out1 := intStagePreMinus needMinus minusBeforeFill out0
      let out2 := intStageFill digits st.spaceFill out1
      let lengthWasBelowDigits : Bool := decide (out2.length ≤ digits)
      let out3 := intStageChunk st.base chunk out2
      let out4 := intStageRadix st.base out3
      let out5 := intStageSign needMinus minusBeforeFill lengthWasBelowDigits addExtraSpace out4
      let final := es.signedNumber (String.mk out5.data.reverse)
      if makeUnsigned then final ++ es.op " u" else final

/-! ### Support values for concrete instantiations -/

/-- A format function that never applies (always the empty string). -/
def noFormat : Int → String := fun _ => ""

/-- A tagging style layer that distinguishes the semantic categories, used
to observe which wrapper a formatter applied. -/
def esTag : Es :=
  { number := fun s => "N" ++ s, signedNumber := fun s => "S" ++ s,
    character := fun s => "C" ++ s, escapedChar := fun s => "E" ++ s,
    op := fun s => "O" ++ s, member := fun s => "M" ++ s,
    reserved := fun s => "R" ++ s, bracket := fun s _ => "B" ++ s }

/-- The identity skip plan: show every element, no ellipsis. -/
def idSkipCmd : ContCmd :=
  { showIndex := false,
    skip := fun n => (List.range n).map (fun i => ((false, i, i) : SkipEntry)) }

/-- A command chain with the identity skip plan at every level. -/
def idCmds : Cmds := fun _ => idSkipCmd

/-! ### Claims -/

/-- C5: for every empty container the container formatter returns the
bracket-styled text `"[ ]"` immediately, for every element-type capability
pair and every depth — in particular also at or beyond the maximum depth. -/
theorem export_container_empty (es : Es) (opts : Opts) (cmd : ContCmd)
    (render : Val → String → Nat → Bool → String) (itb tub : Bool)
    (indent : String) (lll depth : Nat) (fon : Bool) :
    exportContainer es opts cmd render itb tub [] indent lll depth fon =
      es.bracket "[ ]" depth := rfl

/-- C6: for every non-empty container, at or beyond the maximum configured
depth the container formatter returns the styled placeholder `[ ... ]`,
independently of the elements (the result mentions neither `render` nor any
element), so recursion never descends past the depth bound. -/
theorem export_container_depth_capped (es : Es) (opts : Opts) (cmd : ContCmd)
    (render : Val → String → Nat → Bool → String) (itb tub : Bool)
    (a : Val) (rest : List Val) (indent : String) (lll depth : Nat) (fon : Bool)
    (h : opts.maxDepth ≤ depth) :
    exportContainer es opts cmd render itb tub (a :: rest) indent lll depth fon =
      es.bracket "[ " depth ++ es.op "..." ++ es.bracket " ]" depth := by
  simp [exportContainer, h]

/-- Witness for C6 at a concrete input: a one-element container at depth 2
with maximum depth 2. -/
theorem export_container_depth_capped_witness :
    (Opts.mk 80 2 .minimal).maxDepth ≤ 2 ∧
    exportContainer esPlain (Opts.mk 80 2 .minimal) idSkipCmd
        (fun _ _ _ _ => "") false false [Val.prim "x"] "" 0 2 false =
      esPlain.bracket "[ " 2 ++ esPlain.op "..." ++ esPlain.bracket " ]" 2 :=
  ⟨by decide,
   export_container_depth_capped esPlain (Opts.mk 80 2 .minimal) idSkipCmd
     (fun _ _ _ _ => "") false false (Val.prim "x") [] "" 0 2 false (by decide)⟩

/-- C1: for a non-empty container below the depth limit, when
`fail_on_newline` is set and single-line rendering is not possible (the
indent-shift policy forces indentation, or the single-line attempt aborts),
the container formatter returns exactly the newline sentinel, emitting no
element text. -/
theorem export_container_fail_on_newline_sentinel (es : Es) (opts : Opts)
    (cmd : ContCmd) (render : Val → String → Nat → Bool → String)
    (itb tub : Bool) (a : Val) (rest : List Val) (indent : String) (lll depth : Nat)
    (hdepth : depth < opts.maxDepth)
    (hfail : shiftIndentDecision opts itb tub = true ∨
      slLoop es opts.maxLineWidth cmd.showIndex (fun v l2 => render v indent l2 true)
        a rest lll (cmd.skip (rest.length + 1)) true (es.bracket "[ " depth) = none) :
    exportContainer es opts cmd render itb tub (a :: rest) indent lll depth true = nlStr := by
  have hd : ¬ opts.maxDepth ≤ depth := Nat.not_le.mpr hdepth
  rcases hfail with h | h
  · simp [exportContainer, hd, h]
  · by_cases hs : shiftIndentDecision opts itb tub <;> simp [exportContainer, hd, hs, h]

/-- Witness for C1 at a concrete input: width 0 forces the single-line
attempt of `[ y ]` to abort, and with `fail_on_newline` set the result is
the newline sentinel. -/
theorem export_container_fail_on_newline_sentinel_witness :
    (0 < (Opts.mk 0 5 .minimal).maxDepth) ∧
    (slLoop esPlain (Opts.mk 0 5 .minimal).maxLineWidth idSkipCmd.showIndex
        (fun v l2 => (fun _ _ _ _ => "y") v "" l2 true) (Val.prim "y") [] 0
        (idSkipCmd.skip 1) true (esPlain.bracket "[ " 0) = none) ∧
    exportContainer esPlain (Opts.mk 0 5 .minimal) idSkipCmd (fun _ _ _ _ => "y")
        false false [Val.prim "y"] "" 0 0 true = nlStr :=
  ⟨by decide, by decide,
   export_container_fail_on_newline_sentinel esPlain (Opts.mk 0 5 .minimal) idSkipCmd
     (fun _ _ _ _ => "y") false false (Val.prim "y") [] "" 0 0 (by decide)
     (Or.inr (by decide))⟩

/-- C8 counterexample: with the numeric `"1"/"0"` bool style the formatter
wraps the text with the number wrapper, not the reserved-word wrapper, as a
tagging style layer observes on the value `true`. -/
theorem export_arithmetic_bool_numeric_not_reserved :
    exportArithmeticBool esTag
        { boolStyle := .numeric, intStyle := none, charAsHex := false, format := noFormat }
        true ≠ esTag.reserved "1" := by decide

/-- C8 amended: the four bool styles produce the pair texts
`"true"/"false"`, `"true "/"false"`, `" true"/"false"` and `"1"/"0"`; the
first three are wrapped as reserved-word-styled tokens while the numeric
style is wrapped as a number-styled token. -/
theorem export_arithmetic_bool_styles (es : Es) (ist : Option IntStyle)
    (cah : Bool) (fmt : Int → String) (b : Bool) :
    exportArithmeticBool es ⟨.normal, ist, cah, fmt⟩ b =
      es.reserved (if b then "true" else "false") ∧
    exportArithmeticBool es ⟨.trueLeft, ist, cah, fmt⟩ b =
      es.reserved (if b then "true " else "false") ∧
    exportArithmeticBool es ⟨.trueRight, ist, cah, fmt⟩ b =
      es.reserved (if b then " true" else "false") ∧
    exportArithmeticBool es ⟨.numeric, ist, cah, fmt⟩ b =
      es.number (if b then "1" else "0") :=
  ⟨rfl, rfl, rfl, rfl⟩

/-- C4: the signed 8-bit value `-5` with integer style
`{base 16, digits 2, chunk 0, zero fill, signed}` renders (without markup)
exactly as `-0x05`. -/
theorem export_arithmetic_int_neg5_hex :
    exportArithmeticInt esPlain 8 true
        ⟨.normal, some ⟨16, 2, 0, false, false⟩, false, noFormat⟩ (-5) = "-0x05" := by
  decide

/-- C10: with an explicit `{base 10, digits 0, chunk 0}` integer style the
formatter returns `std::to_string` of the value wrapped in signed-number
styling, for every custom format function (so the custom formatter is never
consulted); with no integer style the format function is tried first and
`std::to_string` is used only when it returns the empty string. -/
theorem export_arithmetic_int_default_decimal_style (es : Es) (bits : Nat)
    (signed : Bool) (bs : BoolStyle) (cah sf mu : Bool) (fmt : Int → String) (v : Int) :
    exportArithmeticInt es bits signed ⟨bs, some ⟨10, 0, 0, sf, mu⟩, cah, fmt⟩ v =
      es.signedNumber (toString v) ∧
    (fmt v ≠ "" →
      exportArithmeticInt es bits signed ⟨bs, none, cah, fmt⟩ v = es.signedNumber (fmt v)) ∧
    (fmt v = "" →
      exportArithmeticInt es bits signed ⟨bs, none, cah, fmt⟩ v =
        es.signedNumber (toString v)) := by
  refine ⟨by simp [exportArithmeticInt], fun h => ?_, fun h => ?_⟩
  · simp [exportArithmeticInt, h]
  · simp [exportArithmeticInt, h]

/-- Witness for C10 at a concrete input: a format function returning
`"CUSTOM"` is ignored under the explicit default-decimal style and used
when no integer style is set. -/
theorem export_arithmetic_int_default_decimal_style_witness :
    exportArithmeticInt esPlain 32 true
        ⟨.normal, some ⟨10, 0, 0, false, false⟩, false, fun _ => "CUSTOM"⟩ 42 =
      esPlain.signedNumber (toString (42 : Int)) ∧
    ((fun _ : Int => "CUSTOM") 42 ≠ "") ∧
    exportArithmeticInt esPlain 32 true ⟨.normal, none, false, fun _ => "CUSTOM"⟩ 42 =
      esPlain.signedNumber ((fun _ : Int => "CUSTOM") 42) :=
  ⟨(export_arithmetic_int_default_decimal_style esPlain 32 true .normal false false false
      (fun _ => "CUSTOM") 42).1,
   by decide,
   (export_arithmetic_int_default_decimal_style esPlain 32 true .normal false false false
      (fun _ => "CUSTOM") 42).2.1 (by decide)⟩

/-- `push` is appending a one-character string. -/
theorem push_eq_append (s : String) (c : Char) : s.push c = s ++ String.mk [c] := by
  cases s
  rfl

/-- The styled `0xHH` hex token the char formatter appends: two uppercase
hex digits of the byte value behind a `0x` marker, number-styled. -/
def hexOf (es : Es) (c : Nat) : String :=
  es.number (String.mk [Char.ofNat 48, Char.ofNat 120, digitChar (c / 16 % 16), digitChar (c % 16)])

/-- C9 counterexample: for the escaped quote character (byte 39) with the
char-as-hex toggle set, the rendering is the quoted escape followed
directly by `0x27` — there is no separating space, contrary to the claim
that the hex value is space-separated regardless of escaping. -/
theorem export_arithmetic_char_escape_no_space :
    exportArithmeticChar esPlain
        { boolStyle := .normal, intStyle := none, charAsHex := true, format := noFormat } 39 =
      String.mk [qChar, bsChar, qChar, qChar, Char.ofNat 48, Char.ofNat 120,
        Char.ofNat 50, Char.ofNat 55] ∧
    exportArithmeticChar esPlain
        { boolStyle := .normal, intStyle := none, charAsHex := true, format := noFormat } 39 ≠
      String.mk [qChar, bsChar, qChar, qChar, ' ', Char.ofNat 48, Char.ofNat 120,
        Char.ofNat 50, Char.ofNat 55] := by
  constructor <;> decide

/-- C9 amended: with the char-as-hex toggle set, the two-digit uppercase
hex byte value `0xHH` is always appended, but a separating space precedes
it only when the primary rendering is an unescaped quoted literal; a quoted
escape sequence is followed directly by the hex value (its extra column
keeps widths aligned), and when the escape sequence is longer than two
characters the quoted-literal portion is replaced by four blanks. -/
theorem export_arithmetic_char_hex_layout (es : Es) (bs : BoolStyle)
    (ist : Option IntStyle) (fmt : Int → String) (c : Nat) :
    (32 ≤ c → c ≤ 126 → c ≠ 39 → c ≠ 92 →
      exportArithmeticChar es ⟨bs, ist, true, fmt⟩ c =
        es.character (String.mk [qChar, Char.ofNat c, qChar]) ++ " " ++ hexOf es c) ∧
    (32 ≤ c → c ≤ 126 → (c = 39 ∨ c = 92) →
      exportArithmeticChar es ⟨bs, ist, true, fmt⟩ c =
        es.character (String.mk [qChar]) ++ es.escapedChar (String.mk [bsChar, Char.ofNat c]) ++
          es.character (String.mk [qChar]) ++ hexOf es c) ∧
    (¬(32 ≤ c ∧ c ≤ 126) → (escapeNonPrintable c).length ≤ 2 →
      exportArithmeticChar es ⟨bs, ist, true, fmt⟩ c =
        es.character (String.mk [qChar]) ++ es.escapedChar (escapeNonPrintable c) ++
          es.character (String.mk [qChar]) ++ hexOf es c) ∧
    (¬(32 ≤ c ∧ c ≤ 126) → 2 < (escapeNonPrintable c).length →
      exportArithmeticChar es ⟨bs, ist, true, fmt⟩ c =
        String.mk (List.replicate 4 ' ') ++ hexOf es c) := by
  refine ⟨fun h1 h2 h3 h4 => ?_, fun h1 h2 h3 => ?_, fun h1 h2 => ?_, fun h1 h2 => ?_⟩
  · have hpr : decide (32 ≤ c ∧ c ≤ 126) = true := decide_eq_true ⟨h1, h2⟩
    have h39 : (c == 39) = false := by simp [h3]
    have h92 : (c == 92) = false := by simp [h4]
    simp only [exportArithmeticChar, hexOf, hpr, h39, h92, Bool.not_true, Bool.false_or,
      Bool.or_false, if_false, Bool.not_false, if_true, ite_false, ite_true]
    rw [push_eq_append]
    rfl
  · rcases h3 with rfl | rfl <;>
      simp [exportArithmeticChar, hexOf, String.append_assoc]
  · have hpr : decide (32 ≤ c ∧ c ≤ 126) = false := decide_eq_false h1
    have hesc : ¬ (2 < (escapeNonPrintable c).length) := Nat.not_lt.mpr h2
    simp [exportArithmeticChar, hexOf, hpr, hesc, String.append_assoc]
  · have hpr : decide (32 ≤ c ∧ c ≤ 126) = false := decide_eq_false h1
    simp [exportArithmeticChar, hexOf, hpr, h2]

/-- Witness for C9 amended, one concrete input per case: `a` (0x61),
quote (0x27), newline (0x0A, two-character escape), escape (0x1B,
four-character numeric fallback). -/
theorem export_arithmetic_char_hex_layout_witness :
    exportArithmeticChar esPlain ⟨.normal, none, true, noFormat⟩ 97 =
      esPlain.character (String.mk [qChar, Char.ofNat 97, qChar]) ++ " " ++ hexOf esPlain 97 ∧
    exportArithmeticChar esPlain ⟨.normal, none, true, noFormat⟩ 39 =
      esPlain.character (String.mk [qChar]) ++
        esPlain.escapedChar (String.mk [bsChar, Char.ofNat 39]) ++
        esPlain.character (String.mk [qChar]) ++ hexOf esPlain 39 ∧
    exportArithmeticChar esPlain ⟨.normal, none, true, noFormat⟩ 10 =
      esPlain.character (String.mk [qChar]) ++ esPlain.escapedChar (escapeNonPrintable 10) ++
        esPlain.character (String.mk [qChar]) ++ hexOf esPlain 10 ∧
    exportArithmeticChar esPlain ⟨.normal, none, true, noFormat⟩ 27 =
      String.mk (List.replicate 4 ' ') ++ hexOf esPlain 27 :=
  ⟨(export_arithmetic_char_hex_layout esPlain .normal none noFormat 97).1
      (by decide) (by decide) (by decide) (by decide),
   (export_arithmetic_char_hex_layout esPlain .normal none noFormat 39).2.1
      (by decide) (by decide) (Or.inl rfl),
   (export_arithmetic_char_hex_layout esPlain .normal none noFormat 10).2.2.1
      (by decide) (by decide),
   (export_arithmetic_char_hex_layout esPlain .normal none noFormat 27).2.2.2
      (by decide) (by decide)⟩

/-! ### Digit extraction and decoding (claims C3, C7) -/

/-- A character of the numeral portion: everything except the space (space
fill, chunk separators, the alignment column), the minus sign and the `u`
of the unsigned marker. -/
def keepDigitChar (c : Char) : Bool :=
  !(c == ' ' || c == Char.ofNat 45 || c == Char.ofNat 117)

/-- The digit portion of a rendered integer: drop sign, spaces and the
unsigned marker; for a non-decimal base also the leading two-character
radix marker. -/
def numeralChars (base : Nat) (s : String) : List Char :=
  let kept := s.data.filter keepDigitChar
  if base = 10 then kept else kept.drop 2

/-- The numeric value of an (uppercase) digit character. -/
def hexVal (c : Char) : Nat :=
  if c.toNat ≤ 57 then c.toNat - 48 else c.toNat - 55

/-- Positional decoding of a most-significant-first digit string. -/
def decodeNat (base : Nat) (l : List Char) : Nat :=
  l.foldl (fun acc c => acc * base + hexVal c) 0

/-- The low character of the radix marker (`b`, `o` or `x`). -/
def radixChar (base : Nat) : Char :=
  if base = 2 then Char.ofNat 98 else if base = 8 then Char.ofNat 111 else Char.ofNat 120

theorem revRadixMark_data (base : Nat) :
    (revRadixMark base).data = [radixChar base, Char.ofNat 48] := by
  unfold revRadixMark radixChar
  split <;> [rfl; split <;> rfl]

theorem keep_radixChar (base : Nat) : keepDigitChar (radixChar base) = true := by
  unfold radixChar
  split <;> [decide; split <;> decide]

theorem keep_digitChar (d : Nat) (h : d < 16) : keepDigitChar (digitChar d) = true := by
  interval_cases d <;> decide

theorem hexVal_digitChar (d : Nat) (h : d < 16) : hexVal (digitChar d) = d := by
  interval_cases d <;> decide

theorem natDigitsRevGo_mem (base : Nat) (hb : 0 < base) :
    ∀ fuel n c, c ∈ natDigitsRevGo base fuel n → ∃ d, d < base ∧ c = digitChar d := by
  intro fuel
  induction fuel with
  | zero => intro n c hc; simp [natDigitsRevGo] at hc
  | succ fuel ih =>
    intro n c hc
    by_cases hn : n = 0
    · simp [natDigitsRevGo, hn] at hc
    · simp only [natDigitsRevGo, if_neg hn, List.mem_cons] at hc
      rcases hc with rfl | hc
      · exact ⟨n % base, Nat.mod_lt _ hb, rfl⟩
      · exact ih _ _ hc

theorem absToReversedStr_all_kept (base abs : Nat) (hb : 0 < base) (hb16 : base ≤ 16) :
    ∀ c ∈ (absToReversedStr base abs).data, keepDigitChar c = true := by
  intro c hc
  unfold absToReversedStr at hc
  have hgo : ∀ b, 0 < b → b ≤ 16 → ∀ fuel n,
      c ∈ natDigitsRevGo b fuel n → keepDigitChar c = true := by
    intro b hbpos hb16b fuel n hmem
    obtain ⟨d, hd, rfl⟩ := natDigitsRevGo_mem b hbpos fuel n c hmem
    exact keep_digitChar d (Nat.lt_of_lt_of_le hd hb16b)
  split at hc
  · split at hc
    · simp at hc; subst hc; decide
    · exact hgo 10 (by omega) (by omega) _ _ hc
  · split at hc
    · split at hc
      · simp at hc; subst hc; decide
      · exact hgo 2 (by omega) (by omega) _ _ hc
    · split at hc
      · simp at hc; subst hc; decide
      · exact hgo base hb hb16 _ _ hc

theorem filter_keep_replicate (k : Nat) (c : Char) :
    (List.replicate k c).filter keepDigitChar =
      if keepDigitChar c then List.replicate k c else [] := by
  induction k with
  | zero => simp
  | succ k ih =>
    by_cases hk : keepDigitChar c <;> simp_all [List.replicate_succ, List.filter_cons]

theorem keep_space : keepDigitChar ' ' = false := by decide

theorem chunkGo_nil (chunk fuel : Nat) : chunkGo chunk fuel [] = [] := by
  cases fuel <;> rfl

theorem filter_keep_chunkGo (chunk : Nat) (hc : 0 < chunk) :
    ∀ fuel l, l.length ≤ fuel →
      (chunkGo chunk fuel l).filter keepDigitChar = l.filter keepDigitChar := by
  intro fuel
  induction fuel with
  | zero =>
    intro l hl
    have : l = [] := List.length_eq_zero.mp (Nat.le_zero.mp hl)
    subst this; rfl
  | succ fuel ih =>
    intro l hl
    match l with
    | [] => rfl
    | x :: xs =>
      have hdrop : ((x :: xs).drop chunk).length ≤ fuel := by
        simp only [List.length_drop, List.length_cons]
        simp only [List.length_cons] at hl
        omega
      calc ((x :: xs).take chunk ++ [' '] ++ chunkGo chunk fuel ((x :: xs).drop chunk)).filter keepDigitChar
          = ((x :: xs).take chunk).filter keepDigitChar ++
              ((x :: xs).drop chunk).filter keepDigitChar := by
            simp [List.filter_append, ih _ hdrop, List.filter_cons, keep_space]
        _ = (x :: xs).filter keepDigitChar := by
            rw [← List.filter_append, List.take_append_drop]

theorem chunkGo_concat_space (chunk : Nat) (hc : 0 < chunk) :
    ∀ fuel l, l ≠ [] → l.length ≤ fuel → ∃ z, chunkGo chunk fuel l = z ++ [' '] := by
  intro fuel
  induction fuel with
  | zero =>
    intro l hl hlen
    exact absurd (List.length_eq_zero.mp (Nat.le_zero.mp hlen)) hl
  | succ fuel ih =>
    intro l hl hlen
    match l with
    | x :: xs =>
      by_cases hd : (x :: xs).drop chunk = []
      · exact ⟨(x :: xs).take chunk, by simp [chunkGo, hd, chunkGo_nil]⟩
      · have hdrop : ((x :: xs).drop chunk).length ≤ fuel := by
          simp only [List.length_drop, List.length_cons]
          simp only [List.length_cons] at hlen
          omega
        obtain ⟨z, hz⟩ := ih _ hd hdrop
        exact ⟨(x :: xs).take chunk ++ ' ' :: z, by simp [chunkGo, hz]⟩

theorem decodeNat_concat (base : Nat) (l : List Char) (c : Char) :
    decodeNat base (l ++ [c]) = decodeNat base l * base + hexVal c := by
  simp [decodeNat, List.foldl_append]

theorem decodeNat_rev_digits (base : Nat) (hb2 : 2 ≤ base) (hb16 : base ≤ 16) :
    ∀ fuel n, n ≤ fuel → decodeNat base ((natDigitsRevGo base fuel n).reverse) = n := by
  intro fuel
  induction fuel with
  | zero =>
    intro n hn
    have : n = 0 := Nat.le_zero.mp hn
    subst this; rfl
  | succ fuel ih =>
    intro n hn
    by_cases hn0 : n = 0
    · subst hn0; rfl
    · have hdiv : n / base ≤ fuel := by
        have := Nat.div_lt_self (Nat.pos_of_ne_zero hn0) hb2
        omega
      have hmod : n % base < 16 :=
        Nat.lt_of_lt_of_le (Nat.mod_lt _ (by omega)) hb16
      calc decodeNat base ((natDigitsRevGo base (fuel + 1) n).reverse)
          = decodeNat base ((natDigitsRevGo base fuel (n / base)).reverse ++
              [digitChar (n % base)]) := by
            simp [natDigitsRevGo, hn0]
        _ = (n / base) * base + (n % base) := by
            rw [decodeNat_concat, ih _ hdiv, hexVal_digitChar _ hmod]
        _ = n := by
            rw [Nat.mul_comm (n / base) base]
            exact Nat.div_add_mod n base

theorem decodeNat_zeros (base k : Nat) (l : List Char) :
    decodeNat base (List.replicate k '0' ++ l) = decodeNat base l := by
  have h0 : ∀ m, List.foldl (fun acc c => acc * base + hexVal c) 0
      (List.replicate m '0') = 0 := by
    intro m
    induction m with
    | zero => rfl
    | succ m ihm => simpa [List.replicate_succ, hexVal] using ihm
  simp [decodeNat, List.foldl_append, h0]

theorem data_push (s : String) (c : Char) : (s.push c).data = s.data ++ [c] := rfl

theorem data_append (s t : String) : (s ++ t).data = s.data ++ t.data := rfl

theorem keep_minus : keepDigitChar (Char.ofNat 45) = false := by decide

theorem keep_u : keepDigitChar (Char.ofNat 117) = false := by decide

theorem keep_zero : keepDigitChar (Char.ofNat 48) = true := by decide

theorem preMinus_data (b1 b2 : Bool) (s : String) :
    (intStagePreMinus b1 b2 s).data = s.data ++ (if b1 && b2 then [Char.ofNat 45] else []) := by
  cases b1 <;> cases b2 <;> simp [intStagePreMinus, data_push]

theorem fill_data (d : Nat) (sf : Bool) (s : String) :
    (intStageFill d sf s).data =
      s.data ++ List.replicate (d - s.length) (if sf then ' ' else '0') := by
  unfold intStageFill
  by_cases h : s.length < d
  · simp [h, data_append]
  · have : d - s.length = 0 := by omega
    simp [h, this]

theorem filter_keep_fill_pre (b1 b2 : Bool) (d : Nat) (sf : Bool) (s : String)
    (hpre : (b1 && b2) = true → sf = true) :
    (intStageFill d sf (intStagePreMinus b1 b2 s)).data.filter keepDigitChar =
      s.data.filter keepDigitChar ++
        (if sf then [] else List.replicate (d - s.length) '0') := by
  rw [fill_data, preMinus_data, List.filter_append, List.filter_append]
  cases hb : b1 && b2
  · cases sf
    · have hlen : (intStagePreMinus b1 b2 s).length = s.length := by
        show (intStagePreMinus b1 b2 s).data.length = s.data.length
        rw [preMinus_data, hb]
        simp
      simp [hb, hlen, filter_keep_replicate, keep_zero]
    · simp [hb, filter_keep_replicate, keep_space]
  · have hsf : sf = true := hpre hb
    subst hsf
    simp [hb, filter_keep_replicate, keep_space, keep_minus]

theorem filter_keep_chunkStage (base chunk : Nat) (s : String)
    (h10 : base = 10 → s.data ≠ []) :
    (intStageChunk base chunk s).data.filter keepDigitChar =
      s.data.filter keepDigitChar := by
  unfold intStageChunk
  by_cases hc : 0 < chunk
  · rw [if_pos hc]
    unfold chunkString
    by_cases hb : base = 10
    · obtain ⟨z, hz⟩ :=
        chunkGo_concat_space chunk hc s.length s.data (h10 hb) (Nat.le_of_eq rfl)
      have hfz : (z ++ [' ']).filter keepDigitChar = z.filter keepDigitChar := by
        simp [List.filter_append, keep_space]
      simp only [hb, if_pos rfl, hz, ite_true]
      rw [List.dropLast_concat]
      rw [← hfz, ← hz, filter_keep_chunkGo chunk hc s.length s.data (Nat.le_of_eq rfl)]
    · simp only [hb, ite_false, if_neg hb]
      exact filter_keep_chunkGo chunk hc s.length s.data (Nat.le_of_eq rfl)
  · simp [hc]

theorem filter_keep_radix (base : Nat) (s : String) :
    (intStageRadix base s).data.filter keepDigitChar =
      s.data.filter keepDigitChar ++
        (if base = 10 then [] else [radixChar base, Char.ofNat 48]) := by
  unfold intStageRadix
  by_cases hb : base = 10
  · simp [hb]
  · have : (base == 10) = false := by simp [hb]
    simp [this, hb, data_append, revRadixMark_data, List.filter_append, List.filter_cons,
      keep_radixChar, keep_zero]

theorem filter_keep_sign (b1 b2 b3 b4 : Bool) (s : String) :
    (intStageSign b1 b2 b3 b4 s).data.filter keepDigitChar =
      s.data.filter keepDigitChar := by
  unfold intStageSign
  cases b1 <;> cases b2 <;> cases b3 <;> cases b4 <;>
    simp [data_push, List.filter_append, List.filter_cons, keep_minus, keep_space]

theorem absToReversedStr_ne_nil (base abs : Nat) : (absToReversedStr base abs).data ≠ [] := by
  have hgo : abs ≠ 0 → ∀ b, natDigitsRevGo b abs abs ≠ [] := by
    intro ha b
    obtain ⟨f, rfl⟩ : ∃ f, abs = f + 1 := ⟨abs - 1, by omega⟩
    simp [natDigitsRevGo]
  unfold absToReversedStr
  by_cases ha : abs = 0
  · split <;> simp [ha]
  · split
    · simp [ha, hgo ha]
    · split <;> simp [ha, hgo ha]

theorem filter_keep_absToRev (base abs : Nat) (hb : 0 < base) (hb16 : base ≤ 16) :
    (absToReversedStr base abs).data.filter keepDigitChar =
      (absToReversedStr base abs).data :=
  List.filter_eq_self.mpr (absToReversedStr_all_kept base abs hb hb16)

/-- The numeral-relevant characters of a styled integer rendering: the
optional radix marker (reversed back to `0b`/`0o`/`0x`), then the zero fill
if any, then the most-significant-first digits of the rendered magnitude. -/
theorem kept_int_style (bits : Nat) (signed : Bool) (st : IntStyle) (bs : BoolStyle)
    (cah : Bool) (fmt : Int → String) (v : Int)
    (hne : ¬(st.base = 10 ∧ st.digits = 0 ∧ st.chunk = 0))
    (hb : 0 < st.base) (hb16 : st.base ≤ 16) :
    (exportArithmeticInt esPlain bits signed ⟨bs, some st, cah, fmt⟩ v).data.filter keepDigitChar
      = (if st.base = 10 then [] else [Char.ofNat 48, radixChar st.base]) ++
        ((if st.spaceFill then []
          else List.replicate
            ((if getMaxDigits bits signed st.base < st.digits then
                getMaxDigits bits signed st.base else st.digits) -
              (absToReversedStr st.base (absOf bits signed st v)).length) '0') ++
          (absToReversedStr st.base (absOf bits signed st v)).data.reverse) := by
  simp only [exportArithmeticInt, if_neg hne]
  rw [show esPlain.signedNumber = id from rfl, show esPlain.op = id from rfl]
  set mU : Bool := signed && !(st.base == 10) && st.makeUnsignedOrNoSpaceForMinus with hmU
  set dC : Nat := if getMaxDigits bits signed st.base < st.digits then
    getMaxDigits bits signed st.base else st.digits with hdC
  set cC : Nat := if getMaxDigits bits signed st.base < st.chunk then 0 else st.chunk with hcC
  set out0 : String := absToReversedStr st.base (absOf bits signed st v) with hout0
  set nM : Bool := !mU && decide (v < 0) with hnM
  set mBF : Bool := (st.base == 10) && st.spaceFill with hmBF
  set out1 : String := intStagePreMinus nM mBF out0 with hout1
  set out2 : String := intStageFill dC st.spaceFill out1 with hout2
  set out3 : String := intStageChunk st.base cC out2 with hout3
  set out4 : String := intStageRadix st.base out3 with hout4
  set out5 : String := intStageSign nM mBF (decide (out2.length ≤ dC))
    (!(!signed || st.makeUnsignedOrNoSpaceForMinus)) out4 with hout5
  have hk2 : out2.data.filter keepDigitChar =
      out0.data.filter keepDigitChar ++
        (if st.spaceFill then [] else List.replicate (dC - out0.length) '0') := by
    rw [hout2, hout1]
    refine filter_keep_fill_pre nM mBF dC st.spaceFill out0 ?_
    intro h
    rw [hnM, hmBF] at h
    simp only [Bool.and_eq_true] at h
    exact h.2.2
  have hne2 : out2.data ≠ [] := by
    rw [hout2, fill_data, hout1, preMinus_data]
    intro hcontra
    rcases List.append_eq_nil.mp hcontra with ⟨h1, _⟩
    rcases List.append_eq_nil.mp h1 with ⟨h2, _⟩
    exact absToReversedStr_ne_nil _ _ h2
  have hk3 : out3.data.filter keepDigitChar = out2.data.filter keepDigitChar := by
    rw [hout3]
    exact filter_keep_chunkStage st.base cC out2 (fun _ => hne2)
  have hk4 : out4.data.filter keepDigitChar =
      out2.data.filter keepDigitChar ++
        (if st.base = 10 then [] else [radixChar st.base, Char.ofNat 48]) := by
    rw [hout4, filter_keep_radix, hk3]
  have hk5 : out5.data.filter keepDigitChar = out4.data.filter keepDigitChar := by
    rw [hout5]
    exact filter_keep_sign _ _ _ _ _
  have hk0 : out0.data.filter keepDigitChar = out0.data :=
    filter_keep_absToRev st.base _ hb hb16
  have hrev : ∀ t : String, (String.mk t.data.reverse).data.filter keepDigitChar =
      (t.data.filter keepDigitChar).reverse := by
    intro t
    show t.data.reverse.filter keepDigitChar = _
    exact List.filter_reverse _ _
  have hfinal : (String.mk out5.data.reverse).data.filter keepDigitChar =
      (if st.base = 10 then [] else [Char.ofNat 48, radixChar st.base]) ++
        ((if st.spaceFill then [] else List.replicate (dC - out0.length) '0') ++
          out0.data.reverse) := by
    rw [hrev, hk5, hk4, hk2, hk0]
    by_cases hb10 : st.base = 10 <;> by_cases hsf : st.spaceFill <;>
      simp [hb10, hsf, List.reverse_append, List.reverse_replicate]
  cases hmUval : mU
  · simp only [Bool.false_eq_true, if_false, id]
    exact hfinal
  · simp only [if_true, id, data_append]
    rw [List.filter_append]
    have : (" u" : String).data.filter keepDigitChar = [] := by decide
    rw [this, List.append_nil]
    exact hfinal

theorem str_length_eq_data (s : String) : s.length = s.data.length := rfl

theorem hexVal_zero_char : hexVal (Char.ofNat 48) = 0 := by decide

theorem decode_absToRev (b : Nat) (hb10 : b ≠ 10) (hb2 : 2 ≤ b) (hb16 : b ≤ 16) (a : Nat) :
    decodeNat b ((absToReversedStr b a).data.reverse) = a := by
  unfold absToReversedStr
  rw [if_neg hb10]
  by_cases ha : a = 0
  · subst ha
    split <;> simp [decodeNat, hexVal_zero_char]
  · by_cases hb2eq : b = 2
    · subst hb2eq
      simp only [if_pos rfl, if_neg ha]
      exact decodeNat_rev_digits 2 (by omega) (by omega) a a (Nat.le_refl a)
    · simp only [if_neg hb2eq, if_neg ha]
      exact decodeNat_rev_digits b hb2 hb16 a a (Nat.le_refl a)

/-- C3: for every integral type and every integer style with radix 2, 8 or
16, decoding the digit portion of the rendering (markup-free mode; sign,
spaces, radix marker and unsigned marker removed) in that radix yields the
rendered magnitude: the two's-complement pattern when the
unsigned-reinterpret style applies (signed type, unsigned flag set —
the radix is non-decimal here), the absolute value otherwise. -/
theorem export_arithmetic_int_radix_roundtrip (bits : Nat) (signed : Bool)
    (st : IntStyle) (bs : BoolStyle) (cah : Bool) (fmt : Int → String) (v : Int)
    (hb : st.base = 2 ∨ st.base = 8 ∨ st.base = 16) :
    decodeNat st.base (numeralChars st.base
        (exportArithmeticInt esPlain bits signed ⟨bs, some st, cah, fmt⟩ v)) =
      (if signed && st.makeUnsignedOrNoSpaceForMinus
       then (v % ((2 : Int) ^ bits)).toNat else v.natAbs) := by
  have hb10 : st.base ≠ 10 := by rcases hb with h | h | h <;> omega
  have hb2 : 2 ≤ st.base := by rcases hb with h | h | h <;> omega
  have hb16 : st.base ≤ 16 := by rcases hb with h | h | h <;> omega
  have hne : ¬(st.base = 10 ∧ st.digits = 0 ∧ st.chunk = 0) := fun h => hb10 h.1
  have habs : absOf bits signed st v =
      (if signed && st.makeUnsignedOrNoSpaceForMinus
       then (v % ((2 : Int) ^ bits)).toNat else v.natAbs) := by
    unfold absOf
    have hbeq : (st.base == 10) = false := by simp [hb10]
    simp [hbeq]
  simp only [numeralChars, if_neg hb10]
  rw [kept_int_style bits signed st bs cah fmt v hne (by omega) hb16, if_neg hb10]
  simp only [List.cons_append, List.nil_append, List.drop_succ_cons, List.drop_zero]
  rw [← habs]
  by_cases hsf : st.spaceFill
  · simp only [hsf, ite_true, List.nil_append]
    exact decode_absToRev st.base hb10 hb2 hb16 _
  · have hsf2 : st.spaceFill = false := by simpa using hsf
    rw [hsf2]
    simp only [Bool.false_eq_true, if_false]
    rw [decodeNat_zeros]
    exact decode_absToRev st.base hb10 hb2 hb16 _

/-- Witness for C3 at a concrete input: the signed 8-bit value `-5` in base
16 with the unsigned-reinterpret flag decodes back to its two's-complement
pattern 251. -/
theorem export_arithmetic_int_radix_roundtrip_witness :
    ((16 : Nat) = 2 ∨ (16 : Nat) = 8 ∨ (16 : Nat) = 16) ∧
    decodeNat 16 (numeralChars 16 (exportArithmeticInt esPlain 8 true
        ⟨.normal, some ⟨16, 2, 0, false, true⟩, false, noFormat⟩ (-5))) =
      (if true && true then ((-5 : Int) % ((2 : Int) ^ 8)).toNat else (-5 : Int).natAbs) :=
  ⟨Or.inr (Or.inr rfl),
   export_arithmetic_int_radix_roundtrip 8 true ⟨16, 2, 0, false, true⟩ .normal false
     noFormat (-5) (Or.inr (Or.inr rfl))⟩

/-- C7 counterexample: for the signed 8-bit type, base 16 and a requested
minimum digit count of 10 with zero fill, the numeral portion of the
rendering of 5 has length 2 (the count is clamped to the type's 2 hex
digits), not at least 10. -/
theorem export_arithmetic_int_digits_clamped :
    ¬ (10 ≤ (numeralChars 16 (exportArithmeticInt esPlain 8 true
        ⟨.normal, some ⟨16, 10, 0, false, false⟩, false, noFormat⟩ 5)).length) := by
  decide

/-- C7 amended: with zero fill (space_fill false), the numeral portion of a
styled integer rendering has length at least the requested minimum digit
count clamped to the type's maximum digit count in the requested radix. -/
theorem export_arithmetic_int_min_digit_count (bits : Nat) (signed : Bool)
    (st : IntStyle) (bs : BoolStyle) (cah : Bool) (fmt : Int → String) (v : Int)
    (hb : st.base = 2 ∨ st.base = 8 ∨ st.base = 10 ∨ st.base = 16)
    (hsf : st.spaceFill = false) :
    min st.digits (getMaxDigits bits signed st.base) ≤
      (numeralChars st.base
        (exportArithmeticInt esPlain bits signed ⟨bs, some st, cah, fmt⟩ v)).length := by
  by_cases hdef : st.base = 10 ∧ st.digits = 0 ∧ st.chunk = 0
  · rw [hdef.2.1]
    simp
  · have hb1 : 0 < st.base := by rcases hb with h | h | h | h <;> omega
    have hb16 : st.base ≤ 16 := by rcases hb with h | h | h | h <;> omega
    simp only [numeralChars]
    rw [kept_int_style bits signed st bs cah fmt v hdef hb1 hb16, hsf]
    simp only [Bool.false_eq_true, if_false]
    have hLd : (absToReversedStr st.base (absOf bits signed st v)).data.length =
        (absToReversedStr st.base (absOf bits signed st v)).length := rfl
    by_cases hb10 : st.base = 10
    · simp only [if_pos hb10, List.nil_append, List.length_append, List.length_replicate,
        List.length_reverse, hLd]
      by_cases h : getMaxDigits bits signed st.base < st.digits
      · rw [if_pos h]
        omega
      · rw [if_neg h]
        omega
    · simp only [if_neg hb10, List.cons_append, List.nil_append, List.drop_succ_cons,
        List.drop_zero, List.length_append, List.length_replicate, List.length_reverse, hLd]
      by_cases h : getMaxDigits bits signed st.base < st.digits
      · rw [if_pos h]
        omega
      · rw [if_neg h]
        omega

/-- Witness for C7 amended at a concrete input: the clamped bound
`min 10 2 = 2` is met by the rendering of 5 as `0x05`. -/
theorem export_arithmetic_int_min_digit_count_witness :
    ((16 : Nat) = 2 ∨ (16 : Nat) = 8 ∨ (16 : Nat) = 10 ∨ (16 : Nat) = 16) ∧
    min 10 (getMaxDigits 8 true 16) ≤
      (numeralChars 16 (exportArithmeticInt esPlain 8 true
        ⟨.normal, some ⟨16, 10, 0, false, false⟩, false, noFormat⟩ 5)).length :=
  ⟨Or.inr (Or.inr (Or.inr rfl)),
   export_arithmetic_int_min_digit_count 8 true ⟨16, 10, 0, false, false⟩ .normal false
     noFormat 5 (Or.inr (Or.inr (Or.inr rfl))) rfl⟩

/-! ### Line structure of rendered output (claim C2) -/

/-- Split a character list into its lines (separator: the newline
character; a string with no newline is one line). -/
def linesOf : List Char → List (List Char)
  | [] => [[]]
  | c :: rest =>
    if c = nlChar then [] :: linesOf rest
    else
      match linesOf rest with
      | [] => [[c]]
      | t :: ts => (c :: t) :: ts

theorem linesOf_ne_nil (l : List Char) : linesOf l ≠ [] := by
  match l with
  | [] => simp [linesOf]
  | c :: rest =>
    unfold linesOf
    split
    · simp
    · cases h : linesOf rest <;> simp

theorem linesOf_no_nl (l : List Char) (h : nlChar ∉ l) : linesOf l = [l] := by
  induction l with
  | nil => rfl
  | cons c rest ih =>
    have hc : ¬ c = nlChar := fun hcc => h (hcc ▸ List.mem_cons_self c rest)
    have hr : nlChar ∉ rest := fun hm => h (List.mem_cons_of_mem c hm)
    unfold linesOf
    rw [if_neg hc, ih hr]

theorem linesOf_cons_nl (t : List Char) : linesOf (nlChar :: t) = [] :: linesOf t := by
  simp [linesOf]

theorem linesOf_cons_ne (c : Char) (hc : ¬ c = nlChar) (t : List Char) :
    linesOf (c :: t) = (c :: (linesOf t).headD []) :: (linesOf t).tail := by
  cases h : linesOf t with
  | nil => exact absurd h (linesOf_ne_nil t)
  | cons x xs => simp [linesOf, hc, h]

theorem getLastD_irrel {α : Type} (l : List α) (h : l ≠ []) (d d' : α) :
    l.getLastD d = l.getLastD d' := by
  cases l with
  | nil => exact absurd rfl h
  | cons a t => rfl

theorem linesOf_append (xs ys : List Char) :
    linesOf (xs ++ ys) = (linesOf xs).dropLast ++
      ((linesOf xs).getLastD [] ++ (linesOf ys).headD []) :: (linesOf ys).tail := by
  induction xs with
  | nil =>
    cases h : linesOf ys with
    | nil => exact absurd h (linesOf_ne_nil ys)
    | cons x xs => simp [linesOf, h]
  | cons c rest ih =>
    by_cases hc : c = nlChar
    · subst hc
      obtain ⟨L0, Ls, hL⟩ : ∃ L0 Ls, linesOf rest = L0 :: Ls := by
        cases h : linesOf rest with
        | nil => exact absurd h (linesOf_ne_nil rest)
        | cons x xs => exact ⟨x, xs, rfl⟩
      rw [List.cons_append, linesOf_cons_nl, ih, linesOf_cons_nl, hL]
      simp [List.dropLast_cons_of_ne_nil]
    · rw [List.cons_append, linesOf_cons_ne c hc, linesOf_cons_ne c hc, ih]
      obtain ⟨L0, Ls, hL⟩ : ∃ L0 Ls, linesOf rest = L0 :: Ls := by
        cases h : linesOf rest with
        | nil => exact absurd h (linesOf_ne_nil rest)
        | cons x xs => exact ⟨x, xs, rfl⟩
      rw [hL]
      cases Ls with
      | nil => simp
      | cons L1 Lt => simp [getLastD_irrel (L1 :: Lt) (by simp) L0 []]

theorem dropLast_getLastD_append {α : Type} (l : List α) (hl : l ≠ []) (d : α)
    (X : List α) : l.dropLast ++ l.getLastD d :: X = l ++ X := by
  induction l generalizing d with
  | nil => exact absurd rfl hl
  | cons a t iht =>
    cases t with
    | nil => rfl
    | cons b t2 =>
      rw [List.getLastD_cons, List.dropLast_cons_of_ne_nil (by simp), List.cons_append,
        List.cons_append, iht (by simp) a]

theorem linesOf_append_nl (xs ys : List Char) :
    linesOf (xs ++ nlChar :: ys) = linesOf xs ++ linesOf ys := by
  rw [linesOf_append xs (nlChar :: ys), linesOf_cons_nl]
  simp only [List.headD_cons, List.tail_cons, List.append_nil]
  exact dropLast_getLastD_append (linesOf xs) (linesOf_ne_nil xs) [] (linesOf ys)

theorem linesOf_append_last (xs ys : List Char) (h : nlChar ∉ ys) :
    linesOf (xs ++ ys) =
      (linesOf xs).dropLast ++ [(linesOf xs).getLastD [] ++ ys] := by
  rw [linesOf_append, linesOf_no_nl ys h]
  rfl

theorem hasNewline_iff (s : String) : hasNewline s = true ↔ nlChar ∈ s.data := by
  simp [hasNewline]

theorem hasNewline_false_iff (s : String) : hasNewline s = false ↔ nlChar ∉ s.data := by
  simp [hasNewline]

theorem takeWhile_all {p : Char → Bool} (l : List Char) (h : ∀ x ∈ l, p x = true) :
    l.takeWhile p = l := by
  induction l with
  | nil => rfl
  | cons a t ih =>
    rw [List.takeWhile_cons, if_pos (h a (List.mem_cons_self a t))]
    rw [ih (fun x hx => h x (List.mem_cons_of_mem a hx))]

theorem takeWhile_all_stop {p : Char → Bool} (a : List Char) (c : Char) (b : List Char)
    (ha : ∀ x ∈ a, p x = true) (hc : p c = false) :
    (a ++ c :: b).takeWhile p = a := by
  induction a with
  | nil => simp [List.takeWhile_cons, hc]
  | cons x xs ih =>
    rw [List.cons_append, List.takeWhile_cons, if_pos (ha x (List.mem_cons_self x xs))]
    rw [ih (fun y hy => ha y (List.mem_cons_of_mem x hy))]

theorem getLastLineLength_no_nl (s : String) (h : nlChar ∉ s.data) :
    getLastLineLength s = s.length := by
  unfold getLastLineLength
  rw [takeWhile_all]
  · rw [List.length_reverse]
    rfl
  · intro x hx
    simp only [List.mem_reverse] at hx
    exact decide_eq_true (fun he : x = nlChar => h (he ▸ hx))

theorem getLastLineLength_last_seg (s : String) (x y : List Char) (h : nlChar ∉ y)
    (hs : s.data = x ++ nlChar :: y) : getLastLineLength s = y.length := by
  unfold getLastLineLength
  rw [hs]
  have hrev : (x ++ nlChar :: y).reverse = y.reverse ++ nlChar :: x.reverse := by simp
  rw [hrev, takeWhile_all_stop]
  · simp
  · intro z hz
    simp only [List.mem_reverse] at hz
    exact decide_eq_true (fun he : z = nlChar => h (he ▸ hz))
  · simp

theorem digitChar_ne_nl (n : Nat) : Nat.digitChar n ≠ nlChar := by
  rcases Nat.lt_or_ge n 16 with h16 | h16
  · interval_cases n <;> decide
  ·
    have h0 : ¬ n = 0 := by omega
    have h1 : ¬ n = 1 := by omega
    have h2 : ¬ n = 2 := by omega
    have h3 : ¬ n = 3 := by omega
    have h4 : ¬ n = 4 := by omega
    have h5 : ¬ n = 5 := by omega
    have h6 : ¬ n = 6 := by omega
    have h7 : ¬ n = 7 := by omega
    have h8 : ¬ n = 8 := by omega
    have h9 : ¬ n = 9 := by omega
    have h10 : ¬ n = 10 := by omega
    have h11 : ¬ n = 11 := by omega
    have h12 : ¬ n = 12 := by omega
    have h13 : ¬ n = 13 := by omega
    have h14 : ¬ n = 14 := by omega
    have h15 : ¬ n = 15 := by omega
    simp only [Nat.digitChar, h0, h1, h2, h3, h4, h5, h6, h7, h8, h9, h10, h11, h12, h13, h14, h15, if_false]
    decide

theorem toDigitsCore_no_nl (f : Nat) : ∀ (n : Nat) (ds : List Char), nlChar ∉ ds →
    nlChar ∉ Nat.toDigitsCore 10 f n ds := by
  induction f with
  | zero => intro n ds hds; simpa [Nat.toDigitsCore] using hds
  | succ f ih =>
    intro n ds hds
    have hd : nlChar ∉ (Nat.digitChar (n % 10) :: ds) := by
      intro hmem
      rcases List.mem_cons.mp hmem with he | he
      · exact digitChar_ne_nl (n % 10) he.symm
      · exact hds he
    simp only [Nat.toDigitsCore]
    split
    · exact hd
    · exact ih (n / 10) _ hd

theorem nat_toString_no_nl (n : Nat) : nlChar ∉ (toString n).data := by
  show nlChar ∉ (Nat.repr n).data
  unfold Nat.repr
  exact toDigitsCore_no_nl (n + 1) n [] (by simp)

/-! ### The single-line candidate and the line predicate -/

/-- The comma-joined entry texts of the compact candidate rendering: the
spec's single-line body, following the skip plan, with ellipsis tokens and
optional index labels. -/
def slEntriesGo (render : Val → String) (showIndex : Bool) (a : Val) (rest : List Val) :
    List SkipEntry → Bool → String → String
  | [], _, acc => acc
  | (isEll, pos, idx) :: more, isFirst, acc =>
    let acc1 := if isFirst then acc else acc ++ ", "
    if isEll then slEntriesGo render showIndex a rest more false (acc1 ++ "...")
    else
      let acc2 := if showIndex then acc1 ++ toString idx ++ ": " else acc1
      slEntriesGo render showIndex a rest more false (acc2 ++ render (elemAt a rest pos))

/-- The compact (single-line) candidate rendering of a value in plain mode:
what `export_container` would produce were no width limit hit — primitives
as given, `[ ]` for empty containers, `[ ... ]` at the depth limit, and the
comma-joined plan entries otherwise.  This is the spec's "single-line
candidate", fuelled like the dispatcher. -/
def slRenderF : Nat → Opts → Cmds → Nat → Val → String
  | 0, _, _, _, _ => ""
  | fuel + 1, opts, cmds, depth, v =>
    match v with
    | .prim s => s
    | .cont _ _ l =>
      match l with
      | [] => "[ ]"
      | a :: rest =>
        if opts.maxDepth ≤ depth then "[ ... ]"
        else
          slEntriesGo (fun e => slRenderF fuel opts (shiftCmds cmds) (depth + 1) e)
            ((cmds 0).showIndex) a rest ((cmds 0).skip (rest.length + 1)) true "[ " ++ " ]"

/-- The single-line candidate with always-sufficient fuel. -/
def slRender (opts : Opts) (cmds : Cmds) (depth : Nat) (v : Val) : String :=
  slRenderF (valSize v) opts cmds depth v

mutual

/-- The renderings of all primitive values occurring in a value. -/
def primsOf : Val → List String
  | .prim s => [s]
  | .cont _ _ l => primsOfList l

/-- The renderings of all primitive values occurring in a list of values. -/
def primsOfList : List Val → List String
  | [] => []
  | v :: vs => primsOf v ++ primsOfList vs

end

mutual

/-- Whether no primitive rendering in a value contains a newline (true for
everything the arithmetic formatter produces). -/
def noNLPrims : Val → Bool
  | .prim s => !hasNewline s
  | .cont _ _ l => noNLPrimsList l

/-- `noNLPrims` over a list of values. -/
def noNLPrimsList : List Val → Bool
  | [] => true
  | v :: vs => noNLPrims v && noNLPrimsList vs

end

/-- Modelled from the spec: a well-formed skip plan shows at least one
entry (an element or an ellipsis marker) for every non-empty container. -/
def GoodSkip (cmds : Cmds) : Prop := ∀ k n, 0 < n → (cmds k).skip n ≠ []

theorem goodSkip_shift (cmds : Cmds) (h : GoodSkip cmds) : GoodSkip (shiftCmds cmds) :=
  fun k n hn => h (k + 1) n hn

/-- All-spaces test for an indentation prefix. -/
def isSpacesL (l : List Char) : Bool := l.all (fun c => c == ' ')

/-- An unbreakable tail of a long line: a lone bracket, an empty-container
or depth-limit placeholder, an ellipsis, or a primitive's rendering. -/
def AtomTail (prims : List String) (t : List Char) : Prop :=
  t = "[".data ∨ t = "]".data ∨ t = "[ ]".data ∨ t = "[ ... ]".data ∨ t = "...".data ∨
    ∃ s ∈ prims, t = s.data

/-- An optional index label `i: `. -/
def LabelOk (lab : List Char) : Prop :=
  lab = [] ∨ ∃ n : Nat, lab = (toString n).data ++ [':', ' ']

/-- A permissible line of a multi-line rendering at width `w`: it fits, or
it fits except for a trailing comma, or it is an indentation prefix plus an
optional index label plus an unbreakable tail (plus an optional comma). -/
def OkLine (prims : List String) (w : Nat) (ℓ : List Char) : Prop :=
  ℓ.length ≤ w ∨
  (∃ pre, ℓ = pre ++ [','] ∧ pre.length ≤ w) ∨
  (∃ sp lab t c, ℓ = sp ++ lab ++ t ++ c ∧ isSpacesL sp = true ∧ LabelOk lab ∧
    AtomTail prims t ∧ (c = [] ∨ c = [',']))

theorem atomTail_mono {P Q : List String} (hPQ : ∀ s ∈ P, s ∈ Q) {t : List Char}
    (h : AtomTail P t) : AtomTail Q t := by
  rcases h with h | h | h | h | h | ⟨s, hs, ht⟩
  exacts [.inl h, .inr (.inl h), .inr (.inr (.inl h)), .inr (.inr (.inr (.inl h))),
    .inr (.inr (.inr (.inr (.inl h)))), .inr (.inr (.inr (.inr (.inr ⟨s, hPQ s hs, ht⟩))))]

theorem okLine_mono {P Q : List String} (hPQ : ∀ s ∈ P, s ∈ Q) {w : Nat} {ℓ : List Char}
    (h : OkLine P w ℓ) : OkLine Q w ℓ := by
  rcases h with h | h | ⟨sp, lab, t, c, h1, h2, h3, h4, h5⟩
  · exact Or.inl h
  · exact Or.inr (Or.inl h)
  · exact Or.inr (Or.inr ⟨sp, lab, t, c, h1, h2, h3, atomTail_mono hPQ h4, h5⟩)

theorem elemAt_mem (a : Val) (rest : List Val) (pos : Nat) :
    elemAt a rest pos ∈ a :: rest := by
  unfold elemAt
  have hlt : pos % (rest.length + 1) < (a :: rest).length := by
    simp only [List.length_cons]
    exact Nat.mod_lt _ (by omega)
  rw [List.getD_eq_getElem _ _ hlt]
  exact List.getElem_mem _

theorem valSize_le_of_mem {e : Val} {l : List Val} (h : e ∈ l) :
    valSize e ≤ valSizeList l := by
  induction l with
  | nil => exact absurd h (List.not_mem_nil e)
  | cons a t ih =>
    rcases List.mem_cons.mp h with rfl | h2
    · simp [valSizeList]
      omega
    · have := ih h2
      simp [valSizeList]
      omega

theorem primsOf_sub_of_mem {e : Val} {l : List Val} (h : e ∈ l) :
    ∀ s ∈ primsOf e, s ∈ primsOfList l := by
  induction l with
  | nil => exact absurd h (List.not_mem_nil e)
  | cons a t ih =>
    intro s hs
    rcases List.mem_cons.mp h with rfl | h2
    · simp [primsOfList]
      exact Or.inl hs
    · simp [primsOfList]
      exact Or.inr (ih h2 s hs)

theorem noNLPrims_of_mem {e : Val} {l : List Val} (hm : e ∈ l)
    (h : noNLPrimsList l = true) : noNLPrims e = true := by
  induction l with
  | nil => exact absurd hm (List.not_mem_nil e)
  | cons a t ih =>
    simp only [noNLPrimsList, Bool.and_eq_true] at h
    rcases List.mem_cons.mp hm with rfl | h2
    · exact h.1
    · exact ih h2 h.2

theorem esPlain_op (s : String) : esPlain.op s = s := rfl

theorem esPlain_member (s : String) : esPlain.member s = s := rfl

theorem esPlain_bracket (s : String) (d : Nat) : esPlain.bracket s d = s := rfl

theorem hasNewline_append (s t : String) :
    hasNewline (s ++ t) = (hasNewline s || hasNewline t) := by
  show ((s.data ++ t.data).contains nlChar) = _
  by_cases h1 : nlChar ∈ s.data <;> by_cases h2 : nlChar ∈ t.data <;>
    simp [hasNewline, List.contains, h1, h2]

theorem spaces_no_nl (l : List Char) (h : isSpacesL l = true) : nlChar ∉ l := by
  intro hm
  have := (List.all_eq_true.mp h) nlChar hm
  exact absurd (by simpa using this) (by decide : ¬ nlChar = ' ')

theorem isSpacesL_append (l m : List Char) :
    isSpacesL (l ++ m) = (isSpacesL l && isSpacesL m) := by
  simp [isSpacesL, List.all_append]

theorem slEntriesGo_cons_ell (r : Val → String) (si : Bool) (a : Val) (rest : List Val)
    (pos idx : Nat) (more : List SkipEntry) (isFirst : Bool) (acc : String) :
    slEntriesGo r si a rest ((true, pos, idx) :: more) isFirst acc =
      slEntriesGo r si a rest more false ((if isFirst then acc else acc ++ ", ") ++ "...") := rfl

theorem slEntriesGo_cons_elem (r : Val → String) (si : Bool) (a : Val) (rest : List Val)
    (pos idx : Nat) (more : List SkipEntry) (isFirst : Bool) (acc : String) :
    slEntriesGo r si a rest ((false, pos, idx) :: more) isFirst acc =
      slEntriesGo r si a rest more false
        ((if si then (if isFirst then acc else acc ++ ", ") ++ toString idx ++ ": "
          else (if isFirst then acc else acc ++ ", ")) ++ r (elemAt a rest pos)) := rfl

theorem slLoop_cons_ell (W : Nat) (si : Bool) (render : Val → Nat → String) (a : Val)
    (rest : List Val) (lll pos idx : Nat) (more : List SkipEntry) (isFirst : Bool)
    (acc : String) :
    slLoop esPlain W si render a rest lll ((true, pos, idx) :: more) isFirst acc =
      (if W < lll + getLength ((if isFirst then acc else acc ++ ", ") ++ "...") + 2 then none
       else slLoop esPlain W si render a rest lll more false
         ((if isFirst then acc else acc ++ ", ") ++ "...")) := rfl

theorem slLoop_cons_elem (W : Nat) (si : Bool) (render : Val → Nat → String) (a : Val)
    (rest : List Val) (lll pos idx : Nat) (more : List SkipEntry) (isFirst : Bool)
    (acc : String) :
    slLoop esPlain W si render a rest lll ((false, pos, idx) :: more) isFirst acc =
      (if hasNewline (render (elemAt a rest pos)
          (lll + getLength (if si then (if isFirst then acc else acc ++ ", ") ++ toString idx ++ ": "
            else (if isFirst then acc else acc ++ ", ")))) then none
       else if W < lll + getLength ((if si then (if isFirst then acc else acc ++ ", ") ++
              toString idx ++ ": " else (if isFirst then acc else acc ++ ", ")) ++
              render (elemAt a rest pos)
                (lll + getLength (if si then (if isFirst then acc else acc ++ ", ") ++
                  toString idx ++ ": " else (if isFirst then acc else acc ++ ", ")))) + 2 then none
       else slLoop esPlain W si render a rest lll more false
         ((if si then (if isFirst then acc else acc ++ ", ") ++ toString idx ++ ": "
           else (if isFirst then acc else acc ++ ", ")) ++
           render (elemAt a rest pos)
             (lll + getLength (if si then (if isFirst then acc else acc ++ ", ") ++
               toString idx ++ ": " else (if isFirst then acc else acc ++ ", "))))) := rfl

theorem slEntriesGo_len_ge (crender : Val → String) (si : Bool) (a : Val) (rest : List Val) :
    ∀ entries isFirst (acc : String),
      acc.length ≤ (slEntriesGo crender si a rest entries isFirst acc).length := by
  intro entries
  induction entries with
  | nil => intro isFirst acc; exact Nat.le_refl _
  | cons e more ih =>
    obtain ⟨isEll, pos, idx⟩ := e
    intro isFirst acc
    by_cases hEll : isEll
    · subst hEll
      rw [slEntriesGo_cons_ell]
      refine Nat.le_trans ?_ (ih false _)
      cases isFirst
      all_goals simp [String.length_append]
      all_goals omega
    · have hEll2 : isEll = false := by simpa using hEll
      subst hEll2
      rw [slEntriesGo_cons_elem]
      refine Nat.le_trans ?_ (ih false _)
      by_cases hsi : si <;> cases isFirst
      all_goals simp [hsi, String.length_append]
      all_goals omega

/-- A successful single-line attempt produces exactly the single-line
candidate, contains no newline, and (when the plan is non-empty) fits with
the closing bracket inside the maximum width. -/
theorem slLoop_some (W : Nat) (si : Bool) (render : Val → Nat → String)
    (crender : Val → String) (a : Val) (rest : List Val) (lll : Nat)
    (Hr : ∀ e ∈ a :: rest, ∀ l2, hasNewline (render e l2) = false →
      render e l2 = crender e) :
    ∀ entries isFirst acc out,
      hasNewline acc = false →
      slLoop esPlain W si render a rest lll entries isFirst acc = some out →
      out = slEntriesGo crender si a rest entries isFirst acc ∧
      hasNewline out = false ∧
      (entries ≠ [] → lll + out.length + 2 ≤ W) := by
  intro entries
  induction entries with
  | nil =>
    intro isFirst acc out hacc hout
    have : acc = out := by simpa [slLoop] using hout
    subst this
    exact ⟨rfl, hacc, fun h => absurd rfl h⟩
  | cons e more ih =>
    obtain ⟨isEll, pos, idx⟩ := e
    intro isFirst acc out hacc hout
    have hacc1nl : hasNewline (if isFirst then acc else acc ++ ", ") = false := by
      cases isFirst
      all_goals simp [hasNewline_append, hacc]
      all_goals decide
    by_cases hEll : isEll
    · subst hEll
      rw [slLoop_cons_ell] at hout
      set acc2 := (if isFirst then acc else acc ++ ", ") ++ "..." with hacc2def
      have hacc2nl : hasNewline acc2 = false := by
        rw [hacc2def, hasNewline_append, hacc1nl]
        decide
      by_cases hW : W < lll + getLength acc2 + 2
      · rw [if_pos hW] at hout
        exact absurd hout (by simp)
      · rw [if_neg hW] at hout
        obtain ⟨h1, h2, h3⟩ := ih false acc2 out hacc2nl hout
        rw [slEntriesGo_cons_ell]
        refine ⟨h1, h2, fun _ => ?_⟩
        cases more with
        | nil =>
          have : out = acc2 := by simpa [slEntriesGo] using h1
          subst this
          simpa [getLength] using Nat.not_lt.mp hW
        | cons m2 mrest => exact h3 (by simp)
    · have hEll2 : isEll = false := by simpa using hEll
      subst hEll2
      rw [slLoop_cons_elem] at hout
      set acc2 := if si then (if isFirst then acc else acc ++ ", ") ++ toString idx ++ ": "
        else (if isFirst then acc else acc ++ ", ") with hacc2def
      have hacc2nl : hasNewline acc2 = false := by
        rw [hacc2def]
        by_cases hsi : si
        · rw [if_pos hsi, hasNewline_append, hasNewline_append, hacc1nl]
          have : hasNewline (toString idx) = false := by
            rw [hasNewline_false_iff]
            exact nat_toString_no_nl idx
          rw [this]
          decide
        · rw [if_neg hsi]
          exact hacc1nl
      by_cases hnl : hasNewline (render (elemAt a rest pos) (lll + getLength acc2))
      · rw [if_pos hnl] at hout
        exact absurd hout (by simp)
      · rw [if_neg hnl] at hout
        have hnl2 : hasNewline (render (elemAt a rest pos) (lll + getLength acc2)) = false := by
          simpa using hnl
        have hrc := Hr (elemAt a rest pos) (elemAt_mem a rest pos) (lll + getLength acc2) hnl2
        set acc3 := acc2 ++ render (elemAt a rest pos) (lll + getLength acc2) with hacc3def
        have hacc3nl : hasNewline acc3 = false := by
          rw [hacc3def, hasNewline_append, hacc2nl, hnl2]
          rfl
        by_cases hW : W < lll + getLength acc3 + 2
        · rw [if_pos hW] at hout
          exact absurd hout (by simp)
        · rw [if_neg hW] at hout
          obtain ⟨h1, h2, h3⟩ := ih false acc3 out hacc3nl hout
          have hcand : slEntriesGo crender si a rest ((false, pos, idx) :: more) isFirst acc =
              slEntriesGo crender si a rest more false acc3 := by
            rw [slEntriesGo_cons_elem, hacc3def, hacc2def, hrc]
          refine ⟨by rw [hcand]; exact h1, h2, fun _ => ?_⟩
          cases more with
          | nil =>
            have : out = acc3 := by simpa [slEntriesGo] using h1
            subst this
            simpa [getLength] using Nat.not_lt.mp hW
          | cons m2 mrest => exact h3 (by simp)

/-- When the single-line candidate fits (with the closing bracket) inside
the maximum width, the single-line attempt succeeds and produces it. -/
theorem slLoop_fits (W : Nat) (si : Bool) (render : Val → Nat → String)
    (crender : Val → String) (a : Val) (rest : List Val) (lll : Nat)
    (Hr : ∀ e ∈ a :: rest, ∀ l2 : Nat, l2 + (crender e).length ≤ W →
      render e l2 = crender e ∧ hasNewline (render e l2) = false) :
    ∀ entries isFirst acc,
      lll + (slEntriesGo crender si a rest entries isFirst acc).length + 2 ≤ W →
      slLoop esPlain W si render a rest lll entries isFirst acc =
        some (slEntriesGo crender si a rest entries isFirst acc) := by
  intro entries
  induction entries with
  | nil => intro isFirst acc _; rfl
  | cons e more ih =>
    obtain ⟨isEll, pos, idx⟩ := e
    intro isFirst acc hfit
    by_cases hEll : isEll
    · subst hEll
      rw [slEntriesGo_cons_ell] at hfit ⊢
      rw [slLoop_cons_ell]
      rw [if_neg]
      · exact ih false _ hfit
      · have hge := slEntriesGo_len_ge crender si a rest more false
          ((if isFirst then acc else acc ++ ", ") ++ "...")
        simp only [getLength]
        omega
    · have hEll2 : isEll = false := by simpa using hEll
      subst hEll2
      rw [slEntriesGo_cons_elem] at hfit ⊢
      rw [slLoop_cons_elem]
      set acc2 := if si then (if isFirst then acc else acc ++ ", ") ++ toString idx ++ ": "
        else (if isFirst then acc else acc ++ ", ") with hacc2def
      have hmem := elemAt_mem a rest pos
      have hfit2 : (lll + getLength acc2) + (crender (elemAt a rest pos)).length ≤ W := by
        have hge := slEntriesGo_len_ge crender si a rest more false
          (acc2 ++ crender (elemAt a rest pos))
        rw [String.length_append] at hge
        simp only [getLength]
        omega
      obtain ⟨hrc, hnl⟩ := Hr (elemAt a rest pos) hmem (lll + getLength acc2) hfit2
      rw [hrc] at hnl ⊢
      rw [if_neg (by simp [hnl])]
      rw [if_neg]
      · exact ih false _ hfit
      · have hge := slEntriesGo_len_ge crender si a rest more false
          (acc2 ++ crender (elemAt a rest pos))
        rw [String.length_append] at hge
        simp only [getLength, String.length_append]
        omega

theorem data_nlStr : nlStr.data = [nlChar] := rfl

theorem data_colon_space : (": " : String).data = [':', ' '] := rfl

theorem mlLoop_cons_ell (si : Bool) (newIndent : String) (render : Val → Nat → String)
    (a : Val) (rest : List Val) (pos idx : Nat) (more : List SkipEntry) (isFirst : Bool)
    (acc : String) :
    mlLoop esPlain si newIndent render a rest ((true, pos, idx) :: more) isFirst acc =
      mlLoop esPlain si newIndent render a rest more false
        ((if isFirst then acc else acc ++ ",") ++ nlStr ++ newIndent ++ "...") := rfl

theorem mlLoop_cons_elem (si : Bool) (newIndent : String) (render : Val → Nat → String)
    (a : Val) (rest : List Val) (pos idx : Nat) (more : List SkipEntry) (isFirst : Bool)
    (acc : String) :
    mlLoop esPlain si newIndent render a rest ((false, pos, idx) :: more) isFirst acc =
      mlLoop esPlain si newIndent render a rest more false
        ((if si then (if isFirst then acc else acc ++ ",") ++ nlStr ++ newIndent ++
            toString idx ++ ": "
          else (if isFirst then acc else acc ++ ",") ++ nlStr ++ newIndent) ++
         render (elemAt a rest pos)
           (getLastLineLength (if si then (if isFirst then acc else acc ++ ",") ++ nlStr ++
              newIndent ++ toString idx ++ ": "
            else (if isFirst then acc else acc ++ ",") ++ nlStr ++ newIndent))) := rfl

theorem lines_append_nl_seg (s : String) (t : List Char) (ht : nlChar ∉ t)
    (L : List (List Char)) (hs : linesOf s.data = L) :
    linesOf (s.data ++ nlChar :: t) = L ++ [t] := by
  rw [linesOf_append_nl, hs, linesOf_no_nl t ht]

/-- The loop state of the multi-line fallback: the first line is the open
bracket, closed lines are permissible, and the current line stays
permissible when a comma is appended to it. -/
def MLState (P : List String) (w : Nat) (acc : String) (isFirst : Bool) : Prop :=
  if isFirst then linesOf acc.data = ["[".data]
  else ∃ mid cur, linesOf acc.data = "[".data :: mid ++ [cur] ∧
    (∀ ℓ ∈ mid, OkLine P w ℓ) ∧ OkLine P w cur ∧ OkLine P w (cur ++ [','])

theorem mlState_comma {P : List String} {w : Nat} {acc : String} {isFirst : Bool}
    (h : MLState P w acc isFirst) :
    ∃ L, linesOf ((if isFirst then acc else acc ++ ",").data) = "[".data :: L ∧
      ∀ ℓ ∈ L, OkLine P w ℓ := by
  cases isFirst with
  | true =>
    refine ⟨[], ?_, by simp⟩
    simpa [MLState] using h
  | false =>
    obtain ⟨mid, cur, hl, hmid, _, hcurc⟩ := by simpa [MLState] using h
    refine ⟨mid ++ [cur ++ [',']], ?_, ?_⟩
    · have hdc : (acc ++ ",").data = acc.data ++ [','] := rfl
      rw [if_neg (by simp), hdc, linesOf_append_last acc.data [','] (by decide), hl,
        ← List.cons_append, List.dropLast_concat, List.getLastD_concat]
      simp
    · intro ℓ hℓ
      rcases List.mem_append.mp hℓ with h1 | h1
      · exact hmid ℓ h1
      · rw [List.mem_singleton.mp h1]
        exact hcurc

/-- Invariant preservation for the multi-line fallback loop: starting from
a well-formed state, the loop produces output whose first line is the open
bracket and whose remaining lines are all permissible. -/
theorem mlLoop_lines (W : Nat) (si : Bool) (newIndent : String)
    (render : Val → Nat → String) (a : Val) (rest : List Val) (P : List String)
    (hsp : isSpacesL newIndent.data = true)
    (Hsub : ∀ e ∈ a :: rest, ∀ s ∈ primsOf e, s ∈ P)
    (Hr : ∀ e ∈ a :: rest, ∀ l2,
      (hasNewline (render e l2) = false →
        l2 + (render e l2).length ≤ W ∨ AtomTail (primsOf e) (render e l2).data) ∧
      (hasNewline (render e l2) = true →
        ∃ smid, linesOf (render e l2).data =
            "[".data :: smid ++ [newIndent.data ++ "]".data] ∧
          ∀ ℓ ∈ smid, OkLine (primsOf e) W ℓ)) :
    ∀ entries isFirst acc, MLState P W acc isFirst →
      (entries = [] → isFirst = false) →
      ∃ mid cur,
        linesOf (mlLoop esPlain si newIndent render a rest entries isFirst acc).data =
          "[".data :: mid ++ [cur] ∧ (∀ ℓ ∈ mid, OkLine P W ℓ) ∧ OkLine P W cur := by
  have hnlni : nlChar ∉ newIndent.data := spaces_no_nl _ hsp
  intro entries
  induction entries with
  | nil =>
    intro isFirst acc hstate hne
    have hf : isFirst = false := hne rfl
    subst hf
    obtain ⟨mid, cur, hl, hmid, hcur, _⟩ := by simpa [MLState] using hstate
    exact ⟨mid, cur, hl, hmid, hcur⟩
  | cons e more ih =>
    obtain ⟨isEll, pos, idx⟩ := e
    intro isFirst acc hstate _
    obtain ⟨L, hL, hLok⟩ := mlState_comma hstate
    by_cases hEll : isEll
    · subst hEll
      rw [mlLoop_cons_ell]
      refine ih false _ ?_ (fun _ => rfl)
      have hdata : ((if isFirst then acc else acc ++ ",") ++ nlStr ++ newIndent ++ "...").data =
          ((if isFirst then acc else acc ++ ",").data) ++
            nlChar :: (newIndent.data ++ "...".data) := by
        simp [data_append, data_nlStr, List.append_assoc]
      have hlines : linesOf (((if isFirst then acc else acc ++ ",") ++ nlStr ++ newIndent ++
          "...").data) = ("[".data :: L) ++ [newIndent.data ++ "...".data] := by
        rw [hdata]
        exact lines_append_nl_seg _ _ (by
          intro hm
          rcases List.mem_append.mp hm with h1 | h1
          · exact hnlni h1
          · exact (by decide : nlChar ∉ "...".data) h1) _ hL
      simp only [MLState, if_neg (by simp : ¬ (false = true))]
      refine ⟨L, newIndent.data ++ "...".data, by simpa using hlines, hLok, ?_, ?_⟩
      · exact Or.inr (Or.inr ⟨newIndent.data, [], "...".data, [], by simp, hsp,
          Or.inl rfl, Or.inr (Or.inr (Or.inr (Or.inr (Or.inl rfl)))), Or.inl rfl⟩)
      · exact Or.inr (Or.inr ⟨newIndent.data, [], "...".data, [','], by simp, hsp,
          Or.inl rfl, Or.inr (Or.inr (Or.inr (Or.inr (Or.inl rfl)))), Or.inr rfl⟩)
    · have hEll2 : isEll = false := by simpa using hEll
      subst hEll2
      rw [mlLoop_cons_elem]
      set lab : List Char := if si then (toString idx).data ++ [':', ' '] else [] with hlabdef
      have hlabnl : nlChar ∉ lab := by
        rw [hlabdef]
        by_cases hsi : si
        · rw [if_pos hsi]
          intro hm
          rcases List.mem_append.mp hm with h1 | h1
          · exact nat_toString_no_nl idx h1
          · exact (by decide : nlChar ∉ [':', ' ']) h1
        · rw [if_neg hsi]
          simp
      have hlabok : LabelOk lab := by
        rw [hlabdef]
        by_cases hsi : si
        · rw [if_pos hsi]
          exact Or.inr ⟨idx, rfl⟩
        · rw [if_neg hsi]
          exact Or.inl rfl
      set acc3 := (if si then (if isFirst then acc else acc ++ ",") ++ nlStr ++ newIndent ++
          toString idx ++ ": "
        else (if isFirst then acc else acc ++ ",") ++ nlStr ++ newIndent) with hacc3def
      have hdata3 : acc3.data = ((if isFirst then acc else acc ++ ",").data) ++
          nlChar :: (newIndent.data ++ lab) := by
        rw [hacc3def, hlabdef]
        by_cases hsi : si
        · rw [if_pos hsi, if_pos hsi]
          show ((((if isFirst then acc else acc ++ ",") ++ nlStr ++ newIndent ++
            toString idx) ++ ": ").data) = _
          simp [data_append, data_nlStr, data_colon_space, List.append_assoc]
        · rw [if_neg hsi, if_neg hsi]
          simp [data_append, data_nlStr, List.append_assoc]
      have hninl : nlChar ∉ newIndent.data ++ lab := by
        intro hm
        rcases List.mem_append.mp hm with h1 | h1
        · exact hnlni h1
        · exact hlabnl h1
      have hlines3 : linesOf acc3.data = ("[".data :: L) ++ [newIndent.data ++ lab] := by
        rw [hdata3]
        exact lines_append_nl_seg _ _ hninl _ hL
      have hlast3 : getLastLineLength acc3 = (newIndent.data ++ lab).length :=
        getLastLineLength_last_seg acc3 _ _ hninl hdata3
      have hmem := elemAt_mem a rest pos
      obtain ⟨Hr1, Hr2⟩ := Hr (elemAt a rest pos) hmem (getLastLineLength acc3)
      set s := render (elemAt a rest pos) (getLastLineLength acc3) with hsdef
      refine ih false (acc3 ++ s) ?_ (fun _ => rfl)
      simp only [MLState, if_neg (by simp : ¬ (false = true))]
      by_cases hnl : hasNewline s = true
      · obtain ⟨smid, hslines, hsok⟩ := Hr2 hnl
        have hlines4 : linesOf (acc3 ++ s).data =
            "[".data :: (L ++ ((newIndent.data ++ lab) ++ "[".data) ::
              smid) ++ [newIndent.data ++ "]".data] := by
          rw [data_append, linesOf_append, hlines3, hslines]
          rw [List.dropLast_concat, List.getLastD_concat]
          simp [List.append_assoc]
        refine ⟨L ++ ((newIndent.data ++ lab) ++ "[".data) :: smid,
          newIndent.data ++ "]".data, hlines4, ?_, ?_, ?_⟩
        · intro ℓ hℓ
          rcases List.mem_append.mp hℓ with h1 | h1
          · exact hLok ℓ h1
          · rcases List.mem_cons.mp h1 with rfl | h2
            · exact Or.inr (Or.inr ⟨newIndent.data, lab, "[".data, [], by simp, hsp,
                hlabok, Or.inl rfl, Or.inl rfl⟩)
            · exact okLine_mono (Hsub (elemAt a rest pos) hmem) (hsok ℓ h2)
        · exact Or.inr (Or.inr ⟨newIndent.data, [], "]".data, [], by simp, hsp,
            Or.inl rfl, Or.inr (Or.inl rfl), Or.inl rfl⟩)
        · exact Or.inr (Or.inr ⟨newIndent.data, [], "]".data, [','], by simp, hsp,
            Or.inl rfl, Or.inr (Or.inl rfl), Or.inr rfl⟩)
      · have hnl2 : hasNewline s = false := by simpa using hnl
        have hsnl : nlChar ∉ s.data := (hasNewline_false_iff s).mp hnl2
        have hlines4 : linesOf (acc3 ++ s).data =
            "[".data :: L ++ [(newIndent.data ++ lab) ++ s.data] := by
          rw [data_append, linesOf_append_last _ _ hsnl, hlines3]
          rw [List.dropLast_concat, List.getLastD_concat]
        refine ⟨L, (newIndent.data ++ lab) ++ s.data, by simpa using hlines4, hLok, ?_, ?_⟩
        · rcases Hr1 hnl2 with hw | hat
          · refine Or.inl ?_
            rw [hlast3] at hw
            simp only [List.length_append] at *
            have : s.data.length = s.length := rfl
            omega
          · exact Or.inr (Or.inr ⟨newIndent.data, lab, s.data, [], by simp, hsp, hlabok,
              atomTail_mono (Hsub (elemAt a rest pos) hmem) hat, Or.inl rfl⟩)
        · rcases Hr1 hnl2 with hw | hat
          · refine Or.inr (Or.inl ⟨(newIndent.data ++ lab) ++ s.data, rfl, ?_⟩)
            rw [hlast3] at hw
            simp only [List.length_append] at *
            have : s.data.length = s.length := rfl
            omega
          · exact Or.inr (Or.inr ⟨newIndent.data, lab, s.data, [','], by simp, hsp, hlabok,
              atomTail_mono (Hsub (elemAt a rest pos) hmem) hat, Or.inr rfl⟩)

theorem valSize_pos (v : Val) : 0 < valSize v := by
  cases v with
  | prim s => simp [valSize]
  | cont itb tub l => simp [valSize]

theorem exportContainer_cons (es : Es) (opts : Opts) (cmd : ContCmd)
    (render : Val → String → Nat → Bool → String) (itb tub : Bool) (a : Val)
    (rest : List Val) (indent : String) (lll depth : Nat) (fon : Bool)
    (hdep : ¬ opts.maxDepth ≤ depth)
    (hshift : shiftIndentDecision opts itb tub = false) :
    exportContainer es opts cmd render itb tub (a :: rest) indent lll depth fon =
      (match slLoop es opts.maxLineWidth cmd.showIndex (fun v l2 => render v indent l2 true)
          a rest lll (cmd.skip (rest.length + 1)) true (es.bracket "[ " depth) with
       | some out => out ++ es.bracket " ]" depth
       | none =>
         if fon then nlStr
         else
           mlLoop es cmd.showIndex (indent ++ "  ")
             (fun v l2 => render v (indent ++ "  ") l2 false) a rest
             (cmd.skip (rest.length + 1)) true (es.bracket "[" depth) ++
             nlStr ++ indent ++ es.bracket "]" depth) := by
  simp [exportContainer, hdep, hshift]

theorem slRenderF_cons (fuel : Nat) (opts : Opts) (cmds : Cmds) (depth : Nat)
    (itb tub : Bool) (a : Val) (rest : List Val) (hdep : ¬ opts.maxDepth ≤ depth) :
    slRenderF (fuel + 1) opts cmds depth (.cont itb tub (a :: rest)) =
      slEntriesGo (fun e => slRenderF fuel opts (shiftCmds cmds) (depth + 1) e)
        ((cmds 0).showIndex) a rest ((cmds 0).skip (rest.length + 1)) true "[ " ++ " ]" := by
  simp [slRenderF, hdep]

/-- The main layout induction for the dispatcher with the `minimal` indent
policy: a newline-free result is exactly the single-line candidate and
either fits or is an unbreakable atom; a fitting candidate is produced
verbatim; under `fail_on_newline` a rendering with a newline is the
sentinel; a multi-line rendering opens with `[`, closes with the indented
`]`, and every middle line is permissible; and a non-fitting non-empty
container below the depth limit always goes multi-line. -/
theorem exportVarF_layout (W D : Nat) :
    ∀ fuel (v : Val) (cmds : Cmds) (indent : String) (lll depth : Nat) (fon : Bool),
      valSize v ≤ fuel →
      noNLPrims v = true →
      GoodSkip cmds →
      isSpacesL indent.data = true →
      (hasNewline (exportVarF fuel esPlain (Opts.mk W D .minimal) cmds v indent lll depth fon)
          = false →
        exportVarF fuel esPlain (Opts.mk W D .minimal) cmds v indent lll depth fon =
          slRenderF fuel (Opts.mk W D .minimal) cmds depth v ∧
        (lll + (exportVarF fuel esPlain (Opts.mk W D .minimal) cmds v indent lll depth
            fon).length ≤ W ∨
          AtomTail (primsOf v)
            (exportVarF fuel esPlain (Opts.mk W D .minimal) cmds v indent lll depth
              fon).data)) ∧
      (lll + (slRenderF fuel (Opts.mk W D .minimal) cmds depth v).length ≤ W →
        exportVarF fuel esPlain (Opts.mk W D .minimal) cmds v indent lll depth fon =
          slRenderF fuel (Opts.mk W D .minimal) cmds depth v ∧
        hasNewline (exportVarF fuel esPlain (Opts.mk W D .minimal) cmds v indent lll depth
          fon) = false) ∧
      (fon = true →
        hasNewline (exportVarF fuel esPlain (Opts.mk W D .minimal) cmds v indent lll depth
          fon) = true →
        exportVarF fuel esPlain (Opts.mk W D .minimal) cmds v indent lll depth fon = nlStr) ∧
      (fon = false →
        hasNewline (exportVarF fuel esPlain (Opts.mk W D .minimal) cmds v indent lll depth
          fon) = true →
        ∃ mid, linesOf (exportVarF fuel esPlain (Opts.mk W D .minimal) cmds v indent lll
              depth fon).data =
            "[".data :: mid ++ [indent.data ++ "]".data] ∧
          ∀ ℓ ∈ mid, OkLine (primsOf v) W ℓ) ∧
      (∀ itb tub a rest, v = .cont itb tub (a :: rest) → depth < D → fon = false →
        W < lll + (slRenderF fuel (Opts.mk W D .minimal) cmds depth v).length →
        hasNewline (exportVarF fuel esPlain (Opts.mk W D .minimal) cmds v indent lll depth
          fon) = true) := by
  intro fuel
  induction fuel with
  | zero =>
    intro v cmds indent lll depth fon hsz
    exact absurd hsz (by have := valSize_pos v; omega)
  | succ fuel ih =>
    intro v cmds indent lll depth fon hsz hnn hgs hsp
    match v with
    | .prim s =>
      have hsnl : hasNewline s = false := by
        have : (!hasNewline s) = true := hnn
        simpa using this
      refine ⟨fun _ => ⟨rfl, Or.inr ?_⟩, fun _ => ⟨rfl, hsnl⟩,
        fun _ h2 => absurd h2 (by simp [exportVarF, hsnl]),
        fun _ h2 => absurd h2 (by simp [exportVarF, hsnl]),
        fun itb tub a rest hv => by cases hv⟩
      show AtomTail (primsOf (Val.prim s)) s.data
      exact Or.inr (Or.inr (Or.inr (Or.inr (Or.inr ⟨s, by simp [primsOf], rfl⟩))))
    | .cont itb tub l =>
      match l with
      | [] =>
        have hRe : exportVarF (fuel + 1) esPlain (Opts.mk W D .minimal) cmds
            (.cont itb tub []) indent lll depth fon = "[ ]" := rfl
        have hCe : slRenderF (fuel + 1) (Opts.mk W D .minimal) cmds depth
            (.cont itb tub []) = "[ ]" := rfl
        refine ⟨fun _ => ⟨by rw [hRe, hCe], Or.inr ?_⟩, fun _ => ⟨by rw [hRe, hCe], by
            rw [hRe]; decide⟩,
          fun _ h2 => absurd h2 (by rw [hRe]; decide),
          fun _ h2 => absurd h2 (by rw [hRe]; decide),
          fun itb2 tub2 a rest hv => by cases hv⟩
        rw [hRe]
        exact Or.inr (Or.inr (Or.inl rfl))
      | a :: rest =>
        by_cases hdep : D ≤ depth
        · have hRd : exportVarF (fuel + 1) esPlain (Opts.mk W D .minimal) cmds
              (.cont itb tub (a :: rest)) indent lll depth fon = "[ ... ]" := by
            have h1 : exportVarF (fuel + 1) esPlain (Opts.mk W D .minimal) cmds
                (.cont itb tub (a :: rest)) indent lll depth fon =
                exportContainer esPlain (Opts.mk W D .minimal) (cmds 0)
                  (fun e ind l2 f2 => exportVarF fuel esPlain (Opts.mk W D .minimal)
                    (shiftCmds cmds) e ind l2 (depth + 1) f2)
                  itb tub (a :: rest) indent lll depth fon := rfl
            rw [h1]
            simp only [exportContainer, if_pos hdep]
            rw [esPlain_bracket, esPlain_op, esPlain_bracket]
            decide
          have hCd : slRenderF (fuel + 1) (Opts.mk W D .minimal) cmds depth
              (.cont itb tub (a :: rest)) = "[ ... ]" := by
            simp [slRenderF, hdep]
          refine ⟨fun _ => ⟨by rw [hRd, hCd], Or.inr ?_⟩, fun _ => ⟨by rw [hRd, hCd], by
              rw [hRd]; decide⟩,
            fun _ h2 => absurd h2 (by rw [hRd]; decide),
            fun _ h2 => absurd h2 (by rw [hRd]; decide),
            fun itb2 tub2 a2 rest2 hv hlt => absurd hdep (by omega)⟩
          rw [hRd]
          exact Or.inr (Or.inr (Or.inr (Or.inl rfl)))
        · -- below the depth limit, non-empty
          have hdep2 : ¬ (Opts.mk W D .minimal).maxDepth ≤ depth := hdep
          have hszl : valSizeList (a :: rest) ≤ fuel := by
            have : valSize (.cont itb tub (a :: rest)) = valSizeList (a :: rest) + 1 := rfl
            omega
          have helem : ∀ e ∈ a :: rest, valSize e ≤ fuel :=
            fun e he => Nat.le_trans (valSize_le_of_mem he) hszl
          have hnnl : noNLPrimsList (a :: rest) = true := hnn
          have helemnn : ∀ e ∈ a :: rest, noNLPrims e = true :=
            fun e he => noNLPrims_of_mem he hnnl
          have hgs2 : GoodSkip (shiftCmds cmds) := goodSkip_shift cmds hgs
          have hspni : isSpacesL (indent ++ "  ").data = true := by
            rw [show (indent ++ "  ").data = indent.data ++ "  ".data from rfl,
              isSpacesL_append, hsp]
            decide
          set opts : Opts := Opts.mk W D .minimal with hoptsdef
          set si : Bool := (cmds 0).showIndex with hsidef
          set entries : List SkipEntry := (cmds 0).skip (rest.length + 1) with hentdef
          have hentne : entries ≠ [] := hgs 0 (rest.length + 1) (by omega)
          set crender : Val → String :=
            fun e => slRenderF fuel opts (shiftCmds cmds) (depth + 1) e with hcrdef
          set slcb : Val → Nat → String :=
            fun e l2 => exportVarF fuel esPlain opts (shiftCmds cmds) e indent l2
              (depth + 1) true with hslcbdef
          set mlcb : Val → Nat → String :=
            fun e l2 => exportVarF fuel esPlain opts (shiftCmds cmds) e (indent ++ "  ") l2
              (depth + 1) false with hmlcbdef
          have HrA : ∀ e ∈ a :: rest, ∀ l2, hasNewline (slcb e l2) = false →
              slcb e l2 = crender e := by
            intro e he l2 hne
            exact ((ih e (shiftCmds cmds) indent l2 (depth + 1) true (helem e he)
              (helemnn e he) hgs2 hsp).1 hne).1
          have Hr2 : ∀ e ∈ a :: rest, ∀ l2 : Nat, l2 + (crender e).length ≤ W →
              slcb e l2 = crender e ∧ hasNewline (slcb e l2) = false := by
            intro e he l2 hfit
            exact (ih e (shiftCmds cmds) indent l2 (depth + 1) true (helem e he)
              (helemnn e he) hgs2 hsp).2.1 hfit
          have HrML : ∀ e ∈ a :: rest, ∀ l2,
              (hasNewline (mlcb e l2) = false →
                l2 + (mlcb e l2).length ≤ W ∨ AtomTail (primsOf e) (mlcb e l2).data) ∧
              (hasNewline (mlcb e l2) = true →
                ∃ smid, linesOf (mlcb e l2).data =
                    "[".data :: smid ++ [(indent ++ "  ").data ++ "]".data] ∧
                  ∀ ℓ ∈ smid, OkLine (primsOf e) W ℓ) := by
            intro e he l2
            obtain ⟨ihA, _, _, ihC, _⟩ := ih e (shiftCmds cmds) (indent ++ "  ") l2
              (depth + 1) false (helem e he) (helemnn e he) hgs2 hspni
            exact ⟨fun hne => (ihA hne).2, fun hne => ihC rfl hne⟩
          have hRster : exportVarF (fuel + 1) esPlain opts cmds (.cont itb tub (a :: rest))
              indent lll depth fon =
              (match slLoop esPlain W si slcb a rest lll entries true "[ " with
               | some out => out ++ " ]"
               | none =>
                 if fon then nlStr
                 else
                   mlLoop esPlain si (indent ++ "  ") mlcb a rest entries true "[" ++
                     nlStr ++ indent ++ "]") := by
            show exportContainer esPlain opts (cmds 0)
              (fun e ind l2 f2 => exportVarF fuel esPlain opts (shiftCmds cmds) e ind l2
                (depth + 1) f2) itb tub (a :: rest) indent lll depth fon = _
            rw [exportContainer_cons esPlain opts (cmds 0) _ itb tub a rest indent lll depth
              fon hdep2 rfl]
            rfl
          have hCster : slRenderF (fuel + 1) opts cmds depth (.cont itb tub (a :: rest)) =
              slEntriesGo crender si a rest entries true "[ " ++ " ]" :=
            slRenderF_cons fuel opts cmds depth itb tub a rest hdep2
          cases hatt : slLoop esPlain W si slcb a rest lll entries true "[ " with
          | some out =>
            obtain ⟨hout1, hout2, hout3⟩ := slLoop_some W si slcb crender a rest lll HrA
              entries true "[ " out (by decide) hatt
            have hRval : exportVarF (fuel + 1) esPlain opts cmds (.cont itb tub (a :: rest))
                indent lll depth fon = out ++ " ]" := by
              rw [hRster, hatt]
            have hReqC : out ++ " ]" =
                slRenderF (fuel + 1) opts cmds depth (.cont itb tub (a :: rest)) := by
              rw [hCster, hout1]
            have hwid : lll + (out ++ " ]").length ≤ W := by
              rw [String.length_append]
              have h3 := hout3 hentne
              have hlen2 : (" ]" : String).length = 2 := rfl
              omega
            have hRnl : hasNewline (out ++ " ]") = false := by
              rw [hasNewline_append, hout2]
              decide
            refine ⟨fun _ => ⟨by rw [hRval, hReqC], Or.inl (by rw [hRval]; exact hwid)⟩,
              fun _ => ⟨by rw [hRval, hReqC], by rw [hRval]; exact hRnl⟩,
              fun _ h2 => absurd h2 (by rw [hRval, hRnl]; simp),
              fun _ h2 => absurd h2 (by rw [hRval, hRnl]; simp),
              fun itb2 tub2 a2 rest2 hv hlt hf hbig => ?_⟩
            exfalso
            have hveq : slRenderF (fuel + 1) opts cmds depth (.cont itb tub (a :: rest)) =
                out ++ " ]" := hReqC.symm
            rw [hveq] at hbig
            rw [String.length_append] at hbig
            have h3 := hout3 hentne
            have hlen2 : (" ]" : String).length = 2 := rfl
            omega
          | none =>
            have hnofit : ¬ (lll + (slRenderF (fuel + 1) opts cmds depth
                (.cont itb tub (a :: rest))).length ≤ W) := by
              intro hfit
              rw [hCster, String.length_append] at hfit
              have hlen2 : (" ]" : String).length = 2 := rfl
              have hfits := slLoop_fits W si slcb crender a rest lll Hr2 entries true "[ "
                (by omega)
              rw [hatt] at hfits
              exact absurd hfits (by simp)
            cases fon with
            | true =>
              have hRval : exportVarF (fuel + 1) esPlain opts cmds
                  (.cont itb tub (a :: rest)) indent lll depth true = nlStr := by
                rw [hRster, hatt]
                rfl
              refine ⟨fun h1 => absurd h1 (by rw [hRval]; decide),
                fun hfit => absurd hfit hnofit,
                fun _ _ => hRval,
                fun hf => absurd hf (by decide),
                fun itb2 tub2 a2 rest2 hv hlt hf => absurd hf (by decide)⟩
            | false =>
              set body := mlLoop esPlain si (indent ++ "  ") mlcb a rest entries true "["
                with hbodydef
              have hRval : exportVarF (fuel + 1) esPlain opts cmds
                  (.cont itb tub (a :: rest)) indent lll depth false =
                  body ++ nlStr ++ indent ++ "]" := by
                rw [hRster, hatt]
                rfl
              have hRnl : hasNewline (body ++ nlStr ++ indent ++ "]") = true := by
                rw [hasNewline_append, hasNewline_append, hasNewline_append]
                have : hasNewline nlStr = true := by decide
                rw [this]
                simp
              have hml := mlLoop_lines W si (indent ++ "  ") mlcb a rest
                (primsOfList (a :: rest)) hspni
                (fun e he => primsOf_sub_of_mem he) HrML entries true "["
                (by
                  show linesOf ("[" : String).data = ["[".data]
                  decide)
                (fun he => absurd he hentne)
              obtain ⟨mid, cur, hlines, hmidok, hcurok⟩ := hml
              have hfinal : linesOf (body ++ nlStr ++ indent ++ "]").data =
                  "[".data :: (mid ++ [cur]) ++ [indent.data ++ "]".data] := by
                have hdataR : (body ++ nlStr ++ indent ++ "]").data =
                    body.data ++ nlChar :: (indent.data ++ "]".data) := by
                  simp [data_append, data_nlStr, List.append_assoc]
                rw [hdataR, lines_append_nl_seg body _ (by
                    intro hm
                    rcases List.mem_append.mp hm with h1 | h1
                    · exact spaces_no_nl indent.data hsp h1
                    · exact (by decide : nlChar ∉ "]".data) h1) _ hlines]
                simp
              refine ⟨fun h1 => absurd h1 (by rw [hRval, hRnl]; simp),
                fun hfit => absurd hfit hnofit,
                fun hf => absurd hf (by decide),
                fun _ _ => ?_,
                fun itb2 tub2 a2 rest2 hv hlt hf hbig => by rw [hRval]; exact hRnl⟩
              refine ⟨mid ++ [cur], by rw [hRval]; exact hfinal, ?_⟩
              intro ℓ hℓ
              rcases List.mem_append.mp hℓ with h1 | h1
              · exact hmidok ℓ h1
              · rw [List.mem_singleton.mp h1]
                exact hcurok

theorem goodSkip_idCmds : GoodSkip idCmds := by
  intro k n hn
  simp only [idCmds, idSkipCmd, ne_eq, List.map_eq_nil_iff, List.range_eq_nil]
  omega

/-- C2 counterexample: with maximum width 3, the container `[[]]` (no
primitive anywhere) does not fit on one line, and its multi-line rendering
contains the line `  [ ]` of length 5 — exceeding the maximum width even
though no innermost primitive element exceeds it, contrary to the claim's
exception clause. -/
theorem export_var_line_bound_counterexample :
    (3 < 0 + (slRender (Opts.mk 3 10 .minimal) idCmds 0
        (.cont true false [.cont false false []])).length) ∧
    ¬ (∀ ℓ ∈ linesOf (exportVar esPlain (Opts.mk 3 10 .minimal) idCmds
          (.cont true false [.cont false false []]) "" 0 0 false).data,
        ℓ.length ≤ 3 ∨
        ∃ s ∈ primsOf (.cont true false [.cont false false []]), 3 < s.length) := by
  constructor
  · decide
  · decide

/-- C2 amended: with the `minimal` indent policy, newline-free primitive
renderings and a well-formed skip plan — when the single-line candidate
measured from the caller's column fits within the maximum width, the
formatter produces exactly that candidate on one line; a non-empty
container below the depth limit whose candidate does not fit is rendered
multi-line; and every multi-line rendering opens with `[` alone, closes
with the indented `]`, and each line in between either fits within the
maximum width, or fits except for a trailing comma, or consists of spaces,
an optional index label, and one unbreakable token (a primitive's
rendering, `[ ]`, `[ ... ]`, `...` or a bracket), optionally followed by a
comma. -/
theorem export_var_layout (W D : Nat) (cmds : Cmds) (v : Val) (indent : String)
    (lll depth : Nat) (hnn : noNLPrims v = true) (hgs : GoodSkip cmds)
    (hsp : isSpacesL indent.data = true) :
    (lll + (slRender (Opts.mk W D .minimal) cmds depth v).length ≤ W →
      exportVar esPlain (Opts.mk W D .minimal) cmds v indent lll depth false =
        slRender (Opts.mk W D .minimal) cmds depth v ∧
      hasNewline (exportVar esPlain (Opts.mk W D .minimal) cmds v indent lll depth false)
        = false) ∧
    (∀ itb tub a rest, v = .cont itb tub (a :: rest) → depth < D →
      W < lll + (slRender (Opts.mk W D .minimal) cmds depth v).length →
      hasNewline (exportVar esPlain (Opts.mk W D .minimal) cmds v indent lll depth false)
        = true) ∧
    (hasNewline (exportVar esPlain (Opts.mk W D .minimal) cmds v indent lll depth false)
        = true →
      ∃ mid, linesOf (exportVar esPlain (Opts.mk W D .minimal) cmds v indent lll depth
            false).data =
          "[".data :: mid ++ [indent.data ++ "]".data] ∧
        ∀ ℓ ∈ mid, OkLine (primsOf v) W ℓ) := by
  obtain ⟨hA, hD, hB, hC, hE⟩ := exportVarF_layout W D (valSize v) v cmds indent lll depth
    false (Nat.le_refl _) hnn hgs hsp
  exact ⟨hD, fun itb tub a rest hv hlt hbig => hE itb tub a rest hv hlt rfl hbig,
    fun h => hC rfl h⟩

/-- Witness for C2 amended at two concrete inputs: `[1, 2, 3]` fits within
width 20 and renders as the one-line candidate; `[[]]` overflows width 3
and renders multi-line with the bracket/line structure of the theorem. -/
theorem export_var_layout_witness :
    (0 + (slRender (Opts.mk 20 5 .minimal) idCmds 0
        (.cont false false [.prim "1", .prim "2", .prim "3"])).length ≤ 20) ∧
    exportVar esPlain (Opts.mk 20 5 .minimal) idCmds
        (.cont false false [.prim "1", .prim "2", .prim "3"]) "" 0 0 false =
      slRender (Opts.mk 20 5 .minimal) idCmds 0
        (.cont false false [.prim "1", .prim "2", .prim "3"]) ∧
    hasNewline (exportVar esPlain (Opts.mk 3 10 .minimal) idCmds
        (.cont true false [.cont false false []]) "" 0 0 false) = true ∧
    ∃ mid, linesOf (exportVar esPlain (Opts.mk 3 10 .minimal) idCmds
          (.cont true false [.cont false false []]) "" 0 0 false).data =
        "[".data :: mid ++ [("" : String).data ++ "]".data] ∧
      ∀ ℓ ∈ mid, OkLine (primsOf (.cont true false [.cont false false []])) 3 ℓ :=
  ⟨by decide,
   ((export_var_layout 20 5 idCmds (.cont false false [.prim "1", .prim "2", .prim "3"])
      "" 0 0 (by decide) goodSkip_idCmds (by decide)).1 (by decide)).1,
   by decide,
   (export_var_layout 3 10 idCmds (.cont true false [.cont false false []])
      "" 0 0 (by decide) goodSkip_idCmds (by decide)).2.2 (by decide)⟩

end CppDump
